import Mathlib

/-!
# Mastermind (`mastermind.c`): a shallow embedding and its verified properties

The C program is embedded as pure Lean functions.

* A value of `enum color` (and of the `int color` it is copied into) is an `Int`.
* A C array is a `List Int`; every array access is bounds-checked and the
  embedding of a function returns `none` as soon as an access is out of bounds.
* The random source `rand()` and the standard input are explicit lists that the
  functions consume; a function returns `none` when it needs a value and the
  list is exhausted.
* Printing is left out: it changes no program state.
-/

namespace Mastermind

/-! ## Global constants and the enumerated type -/

/-- The constant `CODE_LENGTH` of the source. -/
def CODE_LENGTH : Nat := 4

/-- The constant `NUM_COLORS` of the source. -/
def NUM_COLORS : Nat := 6

/-- The constant `MAX_GUESSES` of the source. -/
def MAX_GUESSES : Nat := 4

/-- Enumerator `GREEN` of `enum color`. -/
def GREEN : Int := 0
/-- Enumerator `BLUE` of `enum color`. -/
def BLUE : Int := 1
/-- Enumerator `RED` of `enum color`. -/
def RED : Int := 2
/-- Enumerator `YELLOW` of `enum color`. -/
def YELLOW : Int := 3
/-- Enumerator `WHITE` of `enum color`. -/
def WHITE : Int := 4
/-- Enumerator `ORANGE` of `enum color`. -/
def ORANGE : Int := 5

/-! ## C arrays -/

/-- The read `a[i]` for an `int` index: `none` when `i` is out of bounds. -/
def load (a : List Int) (i : Int) : Option Int :=
  if 0 ≤ i then a[i.toNat]? else none

/-- The write `a[i] = v` for an `int` index: `none` when `i` is out of bounds. -/
def store (a : List Int) (i : Int) (v : Int) : Option (List Int) :=
  if 0 ≤ i ∧ i.toNat < a.length then some (a.set i.toNat v) else none

/-- The array `int a[n]; memset(a, 0, sizeof(a));`. -/
def zeroed (n : Nat) : List Int := List.replicate n 0

/-! ## `check_guess` -/

/-- The variables of `check_guess`: the two counters behind the output
pointers and the two local arrays. -/
structure CheckState where
  num_correct : Nat
  num_misplaced : Nat
  code_used : List Int
  guess_used : List Int
deriving DecidableEq, Repr

/-- The pair of numbers `check_guess` leaves in `*num_correct` and `*num_misplaced`. -/
structure Feedback where
  num_correct : Nat
  num_misplaced : Nat
deriving DecidableEq, Repr

/-- Body of the first loop of `check_guess` ("Check for exact matches") at index `i`. -/
def exact_step (code guess : List Int) (st : CheckState) (i : Nat) : Option CheckState :=
  match guess[i]?, code[i]? with
  | some g, some c =>
    if g = c then
      match store st.code_used c 1 with
      | none => none
      | some cu =>
        match store st.guess_used g 1 with
        | none => none
        | some gu =>
          some { num_correct := st.num_correct + 1, num_misplaced := st.num_misplaced,
                 code_used := cu, guess_used := gu }
    else some st
  | _, _ => none

/-- The innermost loop of `check_guess` over the remaining indices `j` of the
code: at the first `j` with `color == code[j] && !code_used[color]` it counts a
misplaced match, marks the color on both sides and breaks. -/
def misplaced_scan (code : List Int) (color : Int) (st : CheckState) :
    List Nat → Option CheckState
  | [] => some st
  | j :: js =>
    match code[j]? with
    | none => none
    | some cj =>
      if color = cj then
        match load st.code_used color with
        | none => none
        | some u =>
          if u = 0 then
            match store st.code_used color 1 with
            | none => none
            | some cu =>
              match store st.guess_used color 1 with
              | none => none
              | some gu =>
                some { num_correct := st.num_correct, num_misplaced := st.num_misplaced + 1,
                       code_used := cu, guess_used := gu }
          else misplaced_scan code color st js
      else misplaced_scan code color st js

/-- Body of the second loop of `check_guess` ("Check for misplaced matches") at index `i`. -/
def misplaced_step (code guess : List Int) (st : CheckState) (i : Nat) : Option CheckState :=
  match guess[i]?, code[i]? with
  | some g, some c =>
    if g ≠ c then
      match load st.guess_used g with
      | none => none
      | some u =>
        if u = 0 then misplaced_scan code g st (List.range CODE_LENGTH)
        else some st
    else some st
  | _, _ => none

/-- A `for` loop whose body can fail, run over the given indices in order. -/
def run_loop (body : CheckState → Nat → Option CheckState) :
    CheckState → List Nat → Option CheckState
  | st, [] => some st
  | st, i :: is =>
    match body st i with
    | none => none
    | some st1 => run_loop body st1 is

/-- The function `check_guess`: the feedback for `guess` against `code`, or
`none` when an array access is out of bounds. -/
def check_guess (code guess : List Int) : Option Feedback :=
  let st0 : CheckState :=
    { num_correct := 0, num_misplaced := 0,
      code_used := zeroed NUM_COLORS, guess_used := zeroed NUM_COLORS }
  match run_loop (exact_step code guess) st0 (List.range CODE_LENGTH) with
  | none => none
  | some st1 =>
    match run_loop (misplaced_step code guess) st1 (List.range CODE_LENGTH) with
    | none => none
    | some st2 => some { num_correct := st2.num_correct, num_misplaced := st2.num_misplaced }

/-! ## `is_valid_guess` -/

/-- The loop of `is_valid_guess` over the remaining indices: it returns `false`
at the first element outside `0 .. NUM_COLORS-1`, otherwise marks the color in
`is_used` (which it never reads) and goes on; `true` after the last index. -/
def is_valid_guess_loop (guess : List Int) : List Int → List Nat → Option Bool
  | _, [] => some true
  | is_used, i :: is =>
    match guess[i]? with
    | none => none
    | some color =>
      if color < 0 ∨ color ≥ (NUM_COLORS : Int) then some false
      else
        match store is_used color 1 with
        | none => none
        | some is_used1 => is_valid_guess_loop guess is_used1 is

/-- The function `is_valid_guess`, or `none` when an array access is out of bounds. -/
def is_valid_guess (guess : List Int) : Option Bool :=
  is_valid_guess_loop guess (zeroed NUM_COLORS) (List.range CODE_LENGTH)

/-! ## `generate_code` -/

/-- The loop `do { color = rand() % NUM_COLORS; } while (used_colors[color]);`
run on the values `rand()` returns: the color it leaves with and the values not
yet drawn. It is `none` when the values run out before the loop ends, or when
the read of `used_colors` is out of bounds. -/
def draw_color (used_colors : List Int) : List Nat → Option (Int × List Nat)
  | [] => none
  | r :: rs =>
    let color : Int := ((r % NUM_COLORS : Nat) : Int)
    match load used_colors color with
    | none => none
    | some u => if u ≠ 0 then draw_color used_colors rs else some (color, rs)

/-- The `for` loop of `generate_code` over the remaining indices `i`. -/
def generate_loop : List Int → List Int → List Nat → List Nat → Option (List Int × List Nat)
  | code, _, draws, [] => some (code, draws)
  | code, used_colors, draws, i :: is =>
    match draw_color used_colors draws with
    | none => none
    | some (color, rest) =>
      match store used_colors color 1 with
      | none => none
      | some used1 =>
        match store code (i : Int) color with
        | none => none
        | some code1 => generate_loop code1 used1 rest is

/-- The function `generate_code` on the caller's array `code` and the values
`rand()` returns: the array as it leaves it and the values not drawn. -/
def generate_code (code : List Int) (draws : List Nat) : Option (List Int × List Nat) :=
  generate_loop code (zeroed NUM_COLORS) draws (List.range CODE_LENGTH)

/-! ## `get_guess` -/

/-- The `switch (c)` of `get_guess`: the color of a letter, `none` for the `default` case. -/
def color_of_char (c : Char) : Option Int :=
  if c = 'G' then some GREEN
  else if c = 'B' then some BLUE
  else if c = 'R' then some RED
  else if c = 'Y' then some YELLOW
  else if c = 'W' then some WHITE
  else if c = 'O' then some ORANGE
  else none

/-- The buffer `char guess_str[CODE_LENGTH + 1]` after `scanf("%s", guess_str)`
has read the word `word`: its characters followed by the terminating NUL (the
bytes after the NUL are never read). It is `none` when the word and its NUL do
not fit in the `CODE_LENGTH + 1` bytes, that is when the write overruns the
buffer. -/
def scanned (word : List Char) : Option (List Char) :=
  if word.length + 1 ≤ CODE_LENGTH + 1 then some (word ++ [Char.ofNat 0]) else none

/-- The `for` loop of `get_guess` over the remaining indices: it returns at the
first character that is no color letter, leaving the rest of `guess` as it was. -/
def get_guess_loop (guess_str : List Char) : List Int → List Nat → Option (List Int)
  | guess, [] => some guess
  | guess, i :: is =>
    match guess_str[i]? with
    | none => none
    | some c =>
      match color_of_char c with
      | none => some guess
      | some color =>
        match store guess (i : Int) color with
        | none => none
        | some guess1 => get_guess_loop guess_str guess1 is

/-- The function `get_guess` on the caller's array `guess` and the word read
from the input: the array as it leaves it, or `none` when the word overruns
`guess_str` or an array access is out of bounds. (Its closing call of
`is_valid_guess` only chooses whether a message is printed.) -/
def get_guess (guess : List Int) (word : List Char) : Option (List Int) :=
  match scanned word with
  | none => none
  | some guess_str => get_guess_loop guess_str guess (List.range CODE_LENGTH)

/-! ## `play_game` -/

/-- One call of `check_guess` made by `play_game`: the value of the loop
counter `i`, the guess and the feedback. -/
structure Turn where
  attempt : Int
  guess : List Int
  feedback : Feedback
deriving DecidableEq, Repr

/-- How one run of the loop body of `play_game` ends: with a `return`, or at
the end of the body (or a `continue`) with the new values of the variables. -/
inductive BodyExit where
  | ret (won : Bool) (turns : List Turn)
  | cont (guess : List Int) (i : Int) (turns : List Turn)
deriving DecidableEq, Repr

/-- What `play_game` returns, with the calls of `check_guess` it made and the
input words it left unread. -/
structure GameResult where
  won : Bool
  turns : List Turn
  unread : List (List Char)
deriving DecidableEq, Repr

/-- The body of the `for` loop of `play_game` for the input word `word`: an
invalid guess runs `i--; continue;`, a valid one is scored by `check_guess` and
ends the game with `return true` when `num_correct == CODE_LENGTH`. -/
def play_body (code guess : List Int) (i : Int) (turns : List Turn) (word : List Char) :
    Option BodyExit :=
  match get_guess guess word with
  | none => none
  | some guess1 =>
    match is_valid_guess guess1 with
    | none => none
    | some false => some (BodyExit.cont guess1 (i - 1) turns)
    | some true =>
      match check_guess code guess1 with
      | none => none
      | some fb =>
        let turns1 := turns ++ [{ attempt := i, guess := guess1, feedback := fb }]
        if fb.num_correct = CODE_LENGTH then some (BodyExit.ret true turns1)
        else some (BodyExit.cont guess1 i turns1)

/-- The `for (...; i < MAX_GUESSES; i++)` loop of `play_game` from the given
values of `guess`, `i` and on the given input words. It is `none` when the
input runs out before the loop ends or an array access is out of bounds. -/
def play_loop (code : List Int) :
    List (List Char) → List Int → Int → List Turn → Option GameResult
  | [], _, i, turns =>
    if i < (MAX_GUESSES : Int) then none
    else some { won := false, turns := turns, unread := [] }
  | word :: rest, guess, i, turns =>
    if i < (MAX_GUESSES : Int) then
      match play_body code guess i turns word with
      | none => none
      | some (BodyExit.ret won turns1) => some { won := won, turns := turns1, unread := rest }
      | some (BodyExit.cont guess1 i1 turns1) => play_loop code rest guess1 (i1 + 1) turns1
    else some { won := false, turns := turns, unread := word :: rest }

/-- The function `play_game` on the secret `code`, the initial content `guess`
of its local array and the words on the input. -/
def play_game (code guess : List Int) (inputs : List (List Char)) : Option GameResult :=
  play_loop code inputs guess 0 []

/-- The contents of the array `guess` after each of the successive calls of
`get_guess` on the given input words, up to the first call that fails. -/
def guess_buffers : List Int → List (List Char) → List (List Int)
  | _, [] => []
  | guess, word :: rest =>
    match get_guess guess word with
    | none => []
    | some guess1 => guess1 :: guess_buffers guess1 rest

/-! ## Vocabulary of the properties -/

/-- A color value in the range `0 .. NUM_COLORS-1`. -/
def InRange (c : Int) : Prop := 0 ≤ c ∧ c < (NUM_COLORS : Int)

instance (c : Int) : Decidable (InRange c) := by
  unfold InRange; infer_instance

/-- A sequence of `CODE_LENGTH` colors, each in the range `0 .. NUM_COLORS-1`
(repeats allowed). -/
def IsCode (xs : List Int) : Prop := xs.length = CODE_LENGTH ∧ ∀ c ∈ xs, InRange c

instance (xs : List Int) : Decidable (IsCode xs) := by
  unfold IsCode; infer_instance

/-- Whether entry `c` of a `used` array is set (non-zero). -/
def marked (u : List Int) (c : Int) : Bool :=
  match load u c with
  | some v => decide (v ≠ 0)
  | none => false

/-- The two `used` arrays of `check_guess` hold the same marks and have `NUM_COLORS` entries. -/
def Paired (st : CheckState) : Prop :=
  st.guess_used = st.code_used ∧ st.code_used.length = NUM_COLORS

/-- The number of colors whose entry of a `used` array is set. -/
def marked_count (u : List Int) : Nat :=
  (List.range NUM_COLORS).countP fun (k : Nat) => marked u (k : Int)

/-- Whether color `c` stands at the same position in `code` and in `guess`. -/
def aligned (code guess : List Int) (c : Int) : Bool :=
  (List.range CODE_LENGTH).any fun i => decide (guess[i]? = some c) && decide (code[i]? = some c)

/-- The number of positions `i` with `guess[i] = code[i]`. -/
def exact_positions (code guess : List Int) : Nat :=
  (List.range CODE_LENGTH).countP fun i => decide (guess[i]? = code[i]?)

/-- The number of distinct colors that occur in `code` and in `guess` and
stand nowhere at the same position in both. -/
def displaced_colors (code guess : List Int) : Nat :=
  (List.range NUM_COLORS).countP fun (k : Nat) =>
    decide ((k : Int) ∈ code) && decide ((k : Int) ∈ guess) && !aligned code guess (k : Int)

/-! ## `print_code` -/

/-- The `switch (code[i])` of `print_code`: the letter printed for a color,
`none` for the `default` case, which prints nothing. -/
def char_of_color (c : Int) : Option Char :=
  if c = GREEN then some 'G'
  else if c = BLUE then some 'B'
  else if c = RED then some 'R'
  else if c = YELLOW then some 'Y'
  else if c = WHITE then some 'W'
  else if c = ORANGE then some 'O'
  else none

/-- The `for` loop of `print_code` over the remaining indices: the letters it
prints after those already printed in `out`. -/
def print_code_loop (code : List Int) : List Char → List Nat → Option (List Char)
  | out, [] => some out
  | out, i :: is =>
    match code[i]? with
    | none => none
    | some c =>
      match char_of_color c with
      | none => print_code_loop code out is
      | some letter => print_code_loop code (out ++ [letter]) is

/-- The function `print_code`: the letters it prints between "The code is: "
and the newline, or `none` when an array access is out of bounds. -/
def print_code (code : List Int) : Option (List Char) :=
  print_code_loop code [] (List.range CODE_LENGTH)

/-! ## `wants_to_play_again` and `main` -/

/-- A color letter of the game. -/
def IsLetter (c : Char) : Prop :=
  c = 'G' ∨ c = 'B' ∨ c = 'R' ∨ c = 'Y' ∨ c = 'W' ∨ c = 'O'

instance (c : Char) : Decidable (IsLetter c) := by
  unfold IsLetter; infer_instance

/-- The number of distinct colors that occur in both sequences. -/
def common_colors (secret guess : List Int) : Nat :=
  (List.range NUM_COLORS).countP fun (k : Nat) =>
    decide ((k : Int) ∈ secret) && decide ((k : Int) ∈ guess)

/-- Standard Mastermind scoring, following the words of the specification: the
sum over the colors `c` of `min (count of c in secret) (count of c in guess)`. -/
def standard_matches (secret guess : List Int) : Nat :=
  ((List.range NUM_COLORS).map fun (k : Nat) =>
    min (secret.count (k : Int)) (guess.count (k : Int))).sum

/-- The values `rand() % NUM_COLORS` of the values `rand()` returns. -/
def color_draws (draws : List Nat) : List Int :=
  draws.map fun r => ((r % NUM_COLORS : Nat) : Int)

/-- The values of `vs` not yet in `acc`, appended to `acc` in the order of
their first occurrence. -/
def first_occurrences_from (acc : List Int) (vs : List Int) : List Int :=
  vs.foldl (fun seen v => if v ∈ seen then seen else seen ++ [v]) acc

/-- The distinct values of a sequence in the order of their first occurrence. -/
def first_occurrences (vs : List Int) : List Int := first_occurrences_from [] vs

/-! ## Array lemmas -/

theorem store_length {u u1 : List Int} {c v : Int} (h : store u c v = some u1) :
    u1.length = u.length := by
  unfold store at h
  split at h
  · simp only [Option.some.injEq] at h
    subst h
    simp
  · simp at h

theorem store_isSome (u : List Int) (c v : Int) (h0 : 0 ≤ c) (h1 : c < (u.length : Int)) :
    ∃ u1, store u c v = some u1 := by
  have : c.toNat < u.length := (Int.toNat_lt h0).2 h1
  exact ⟨u.set c.toNat v, by simp [store, h0, this]⟩

theorem load_isSome (u : List Int) (c : Int) (h0 : 0 ≤ c) (h1 : c < (u.length : Int)) :
    ∃ v, load u c = some v := by
  have : c.toNat < u.length := (Int.toNat_lt h0).2 h1
  exact ⟨u[c.toNat], by simp [load, h0, this]⟩

theorem marked_store {u u1 : List Int} {c : Int} (h : store u c 1 = some u1) (d : Int) :
    marked u1 d = (decide (d = c) || marked u d) := by
  unfold store at h
  split at h
  · rename_i hc
    simp only [Option.some.injEq] at h
    subst h
    by_cases hd : d = c
    · subst hd
      simp [marked, load, hc.1, hc.2]
    · by_cases hd0 : 0 ≤ d
      · have hne : c.toNat ≠ d.toNat := by
          intro he
          apply hd
          rw [← Int.toNat_of_nonneg hd0, ← Int.toNat_of_nonneg hc.1, he]
        simp [marked, load, hd0, hd, List.getElem?_set_ne hne]
      · simp [marked, load, hd0, hd]
  · simp at h

theorem marked_zeroed (n : Nat) (d : Int) : marked (zeroed n) d = false := by
  unfold marked load zeroed
  split
  · rename_i v hv
    split at hv
    · rw [List.getElem?_replicate] at hv
      split at hv
      · simp only [Option.some.injEq] at hv
        subst hv
        simp
      · simp at hv
    · simp at hv
  · rfl

theorem load_eq_zero_iff {u : List Int} {c v : Int} (h : load u c = some v) :
    v = 0 ↔ marked u c = false := by
  simp [marked, h]

/-! ## Counting lemmas -/

theorem countP_mark_one {l : List Nat} (p q : Nat → Bool) (k : Nat) (hl : l.Nodup)
    (hk : k ∈ l) (hp : p k = false) (hq : q k = true) (h : ∀ d, d ≠ k → q d = p d) :
    l.countP q = l.countP p + 1 := by
  induction l with
  | nil => simp at hk
  | cons a l ih =>
    rw [List.nodup_cons] at hl
    rw [List.countP_cons, List.countP_cons]
    by_cases hak : a = k
    · subst hak
      have hcongr : l.countP q = l.countP p := by
        apply List.countP_congr
        intro x hx
        have hxa : x ≠ a := fun e => hl.1 (e ▸ hx)
        rw [h x hxa]
      simp [hp, hq, hcongr]
    · have hk1 : k ∈ l := by
        rcases List.mem_cons.1 hk with e | e
        · exact absurd e.symm hak
        · exact e
      rw [ih hl.2 hk1, h a hak]
      omega

theorem countP_disjoint_or {α : Type} (l : List α) (a b c : α → Bool)
    (hc : ∀ x ∈ l, c x = (a x || b x)) (hd : ∀ x ∈ l, ¬ (a x = true ∧ b x = true)) :
    l.countP c = l.countP a + l.countP b := by
  induction l with
  | nil => simp
  | cons x l ih =>
    have ih1 := ih (fun y hy => hc y (List.mem_cons_of_mem _ hy))
      (fun y hy => hd y (List.mem_cons_of_mem _ hy))
    have hx := hc x (List.mem_cons_self _ _)
    have hdx := hd x (List.mem_cons_self _ _)
    rw [List.countP_cons, List.countP_cons, List.countP_cons, ih1, hx]
    cases ha : a x <;> cases hb : b x <;> simp_all <;> omega

/-! ## The loops of `check_guess` -/

theorem IsCode.entry {xs : List Int} (h : IsCode xs) {i : Nat} (hi : i < CODE_LENGTH) :
    ∃ c, xs[i]? = some c ∧ InRange c := by
  have hlt : i < xs.length := by rw [h.1]; exact hi
  exact ⟨xs[i], List.getElem?_eq_getElem hlt, h.2 _ (List.getElem_mem hlt)⟩

theorem IsCode.mem_iff {xs : List Int} (h : IsCode xs) (c : Int) :
    c ∈ xs ↔ ∃ i ∈ List.range CODE_LENGTH, xs[i]? = some c := by
  rw [List.mem_iff_getElem?]
  constructor
  · rintro ⟨n, hn⟩
    refine ⟨n, ?_, hn⟩
    rw [List.mem_range, ← h.1]
    exact (List.getElem?_eq_some.1 hn).1
  · rintro ⟨i, _, hi⟩
    exact ⟨i, hi⟩

theorem exact_step_spec {code guess : List Int} (hc : IsCode code) (hg : IsCode guess)
    {i : Nat} (hi : i < CODE_LENGTH) (st : CheckState) (hst : Paired st) :
    ∃ st1, exact_step code guess st i = some st1 ∧ Paired st1 ∧
      st1.num_misplaced = st.num_misplaced ∧
      st1.num_correct = st.num_correct + (if guess[i]? = code[i]? then 1 else 0) ∧
      ∀ d, marked st1.code_used d =
        (marked st.code_used d ||
          (decide (guess[i]? = some d) && decide (code[i]? = some d))) := by
  obtain ⟨c, hci, hcr⟩ := hc.entry hi
  obtain ⟨g, hgi, hgr⟩ := hg.entry hi
  by_cases hgc : g = c
  · subst hgc
    obtain ⟨cu, hcu⟩ := store_isSome st.code_used g 1 hgr.1 (by rw [hst.2]; exact hgr.2)
    refine ⟨{ num_correct := st.num_correct + 1, num_misplaced := st.num_misplaced,
              code_used := cu, guess_used := cu }, ?_, ?_, rfl, ?_, ?_⟩
    · simp [exact_step, hci, hgi, hst.1, hcu]
    · exact ⟨rfl, by rw [store_length hcu]; exact hst.2⟩
    · simp [hci, hgi]
    · intro d
      simp only [marked_store hcu d, hci, hgi, Option.some.injEq]
      by_cases hd : d = g
      · subst hd; simp
      · have hd1 : ¬ g = d := fun e => hd e.symm
        simp [hd, hd1]
  · refine ⟨st, ?_, hst, rfl, ?_, ?_⟩
    · simp [exact_step, hci, hgi, hgc]
    · simp [hci, hgi, hgc]
    · intro d
      have : ¬ (g = d ∧ c = d) := fun ⟨a, b⟩ => hgc (a.trans b.symm)
      simp only [hci, hgi, Option.some.injEq]
      by_cases h1 : g = d <;> by_cases h2 : c = d <;> simp_all

theorem exact_loop_spec {code guess : List Int} (hc : IsCode code) (hg : IsCode guess) :
    ∀ (is : List Nat) (st : CheckState), (∀ i ∈ is, i < CODE_LENGTH) → Paired st →
    ∃ st1, run_loop (exact_step code guess) st is = some st1 ∧ Paired st1 ∧
      st1.num_misplaced = st.num_misplaced ∧
      st1.num_correct = st.num_correct + is.countP (fun i => decide (guess[i]? = code[i]?)) ∧
      ∀ d, marked st1.code_used d =
        (marked st.code_used d ||
          is.any fun i => decide (guess[i]? = some d) && decide (code[i]? = some d)) := by
  intro is
  induction is with
  | nil =>
    intro st _ hst
    exact ⟨st, rfl, hst, rfl, by simp, by simp⟩
  | cons i is ih =>
    intro st his hst
    obtain ⟨st1, h1, hp1, hm1, hn1, hk1⟩ :=
      exact_step_spec hc hg (his i (List.mem_cons_self _ _)) st hst
    obtain ⟨st2, h2, hp2, hm2, hn2, hk2⟩ :=
      ih st1 (fun j hj => his j (List.mem_cons_of_mem _ hj)) hp1
    refine ⟨st2, ?_, hp2, hm2.trans hm1, ?_, ?_⟩
    · simp [run_loop, h1, h2]
    · rw [hn2, hn1, List.countP_cons]
      simp only [decide_eq_true_eq]
      omega
    · intro d
      rw [hk2 d, hk1 d, List.any_cons, Bool.or_assoc]

theorem marked_count_store {u u1 : List Int} {c : Int} (hc : InRange c)
    (h : store u c 1 = some u1) (hm : marked u c = false) :
    marked_count u1 = marked_count u + 1 := by
  have hk : ((c.toNat : Nat) : Int) = c := Int.toNat_of_nonneg hc.1
  unfold marked_count
  apply countP_mark_one _ _ c.toNat (List.nodup_range _)
  · rw [List.mem_range]
    exact (Int.toNat_lt hc.1).2 hc.2
  · rw [hk]; exact hm
  · rw [hk, marked_store h]; simp
  · intro d hd
    have : ¬ ((d : Int) = c) := by
      intro e
      apply hd
      rw [← e]
      simp
    rw [marked_store h]
    simp [this]

theorem misplaced_scan_spec {code : List Int} (hc : IsCode code) {color : Int}
    (hcol : InRange color) (st : CheckState) (hst : Paired st)
    (hm : marked st.code_used color = false) :
    ∀ js : List Nat, (∀ j ∈ js, j < CODE_LENGTH) →
    ∃ st1, misplaced_scan code color st js = some st1 ∧ Paired st1 ∧
      st1.num_correct = st.num_correct ∧
      ((js.any fun j => decide (code[j]? = some color)) = true →
        st1.num_misplaced = st.num_misplaced + 1 ∧
        marked_count st1.code_used = marked_count st.code_used + 1 ∧
        ∀ d, marked st1.code_used d = (decide (d = color) || marked st.code_used d)) ∧
      ((js.any fun j => decide (code[j]? = some color)) = false → st1 = st) := by
  intro js
  induction js with
  | nil =>
    intro _
    exact ⟨st, rfl, hst, rfl, by simp, by simp⟩
  | cons j js ih =>
    intro hjs
    obtain ⟨cj, hcj, _⟩ := hc.entry (hjs j (List.mem_cons_self _ _))
    by_cases he : color = cj
    · subst he
      obtain ⟨u, hu⟩ := load_isSome st.code_used color hcol.1 (by rw [hst.2]; exact hcol.2)
      have hu0 : u = 0 := (load_eq_zero_iff hu).2 hm
      obtain ⟨cu, hcu⟩ := store_isSome st.code_used color 1 hcol.1 (by rw [hst.2]; exact hcol.2)
      refine ⟨{ num_correct := st.num_correct, num_misplaced := st.num_misplaced + 1,
                code_used := cu, guess_used := cu }, ?_, ?_, rfl, ?_, ?_⟩
      · simp [misplaced_scan, hcj, hu, hu0, hst.1, hcu]
      · exact ⟨rfl, by rw [store_length hcu]; exact hst.2⟩
      · intro _
        exact ⟨rfl, marked_count_store hcol hcu hm, fun d => marked_store hcu d⟩
      · intro h
        simp [hcj] at h
    · obtain ⟨st1, h1, hp1, hn1, hyes, hno⟩ := ih (fun k hk => hjs k (List.mem_cons_of_mem _ hk))
      have hne : ¬ cj = color := fun e => he e.symm
      refine ⟨st1, ?_, hp1, hn1, ?_, ?_⟩
      · simp [misplaced_scan, hcj, he, h1]
      · intro h
        apply hyes
        simpa [hcj, hne] using h
      · intro h
        apply hno
        simpa [hcj, hne] using h

theorem misplaced_step_spec {code guess : List Int} (hc : IsCode code) (hg : IsCode guess)
    {i : Nat} (hi : i < CODE_LENGTH) (st : CheckState) (hst : Paired st) :
    ∃ st1, misplaced_step code guess st i = some st1 ∧ Paired st1 ∧
      st1.num_correct = st.num_correct ∧
      st1.num_misplaced + marked_count st.code_used =
        st.num_misplaced + marked_count st1.code_used ∧
      st1.num_misplaced ≤ st.num_misplaced + (if guess[i]? = code[i]? then 0 else 1) ∧
      ∀ d, marked st1.code_used d =
        (marked st.code_used d ||
          (decide (guess[i]? = some d) && !decide (code[i]? = some d) && decide (d ∈ code))) := by
  obtain ⟨c, hci, hcr⟩ := hc.entry hi
  obtain ⟨g, hgi, hgr⟩ := hg.entry hi
  by_cases hgc : g = c
  · subst hgc
    refine ⟨st, ?_, hst, rfl, rfl, by omega, ?_⟩
    · simp [misplaced_step, hci, hgi]
    · intro d
      simp only [hci, hgi, Option.some.injEq]
      by_cases h1 : g = d <;> simp [h1]
  · obtain ⟨u, hu⟩ := load_isSome st.guess_used g hgr.1 (by rw [hst.1, hst.2]; exact hgr.2)
    have hu1 : load st.code_used g = some u := by rw [← hst.1]; exact hu
    by_cases hu0 : u = 0
    · have hm : marked st.code_used g = false := (load_eq_zero_iff hu1).1 hu0
      obtain ⟨st1, h1, hp1, hn1, hyes, hno⟩ :=
        misplaced_scan_spec hc hgr st hst hm (List.range CODE_LENGTH)
          (fun j hj => List.mem_range.1 hj)
      have hstep : misplaced_step code guess st i = some st1 := by
        simp [misplaced_step, hci, hgi, hgc, hu, hu0, h1]
      have hany : ((List.range CODE_LENGTH).any fun j => decide (code[j]? = some g)) = true
          ↔ g ∈ code := by
        rw [hc.mem_iff g, List.any_eq_true]
        simp
      by_cases hmem : g ∈ code
      · obtain ⟨hnm, hcnt, hmk⟩ := hyes (hany.2 hmem)
        refine ⟨st1, hstep, hp1, hn1, by omega, ?_, ?_⟩
        · simp only [hci, hgi, Option.some.injEq, hgc, if_false]
          omega
        · intro d
          rw [hmk d]
          simp only [hci, hgi, Option.some.injEq]
          by_cases hd : d = g
          · subst hd
            have : ¬ c = d := fun e => hgc e.symm
            simp [hmem, this]
          · have hd1 : ¬ g = d := fun e => hd e.symm
            simp [hd, hd1]
      · have hf : ((List.range CODE_LENGTH).any fun j => decide (code[j]? = some g)) = false := by
          cases hb : ((List.range CODE_LENGTH).any fun j => decide (code[j]? = some g))
          · rfl
          · exact absurd (hany.1 hb) hmem
        have hst1 := hno hf
        subst hst1
        refine ⟨st1, hstep, hp1, rfl, rfl, by omega, ?_⟩
        intro d
        simp only [hci, hgi, Option.some.injEq]
        by_cases hd : g = d
        · subst hd; simp [hmem]
        · simp [hd]
    · have hm : marked st.code_used g = true := by
        cases hb : marked st.code_used g
        · exact absurd ((load_eq_zero_iff hu1).2 hb) hu0
        · rfl
      refine ⟨st, ?_, hst, rfl, rfl, by omega, ?_⟩
      · simp [misplaced_step, hci, hgi, hgc, hu, hu0]
      · intro d
        simp only [hci, hgi, Option.some.injEq]
        by_cases hd : g = d
        · subst hd; simp [hm]
        · simp [hd]

theorem misplaced_loop_spec {code guess : List Int} (hc : IsCode code) (hg : IsCode guess) :
    ∀ (is : List Nat) (st : CheckState), (∀ i ∈ is, i < CODE_LENGTH) → Paired st →
    ∃ st1, run_loop (misplaced_step code guess) st is = some st1 ∧ Paired st1 ∧
      st1.num_correct = st.num_correct ∧
      st1.num_misplaced + marked_count st.code_used =
        st.num_misplaced + marked_count st1.code_used ∧
      st1.num_misplaced ≤
        st.num_misplaced + is.countP (fun i => !decide (guess[i]? = code[i]?)) ∧
      ∀ d, marked st1.code_used d =
        (marked st.code_used d ||
          is.any fun i =>
            decide (guess[i]? = some d) && !decide (code[i]? = some d) && decide (d ∈ code)) := by
  intro is
  induction is with
  | nil =>
    intro st _ hst
    exact ⟨st, rfl, hst, rfl, rfl, by simp, by simp⟩
  | cons i is ih =>
    intro st his hst
    obtain ⟨st1, h1, hp1, hn1, hc1, hb1, hk1⟩ :=
      misplaced_step_spec hc hg (his i (List.mem_cons_self _ _)) st hst
    obtain ⟨st2, h2, hp2, hn2, hc2, hb2, hk2⟩ :=
      ih st1 (fun j hj => his j (List.mem_cons_of_mem _ hj)) hp1
    refine ⟨st2, ?_, hp2, hn2.trans hn1, by omega, ?_, ?_⟩
    · simp [run_loop, h1, h2]
    · rw [List.countP_cons]
      by_cases he : guess[i]? = code[i]?
      · simp only [he, if_true] at hb1
        simp only [he, decide_True, Bool.not_true] at hb2 ⊢
        omega
      · simp only [he, if_false] at hb1
        simp only [he, decide_False, Bool.not_false, if_true]
        omega
    · intro d
      rw [hk2 d, hk1 d, List.any_cons, Bool.or_assoc]

/-- The run of `check_guess` on two sequences of `CODE_LENGTH` colors in range:
it returns, `num_correct` is the number of positions that agree, `num_misplaced`
the number of colors common to both and aligned nowhere, and the two together
are at most `CODE_LENGTH`. -/
theorem check_guess_run {code guess : List Int} (hc : IsCode code) (hg : IsCode guess) :
    ∃ fb, check_guess code guess = some fb ∧
      fb.num_correct = exact_positions code guess ∧
      fb.num_misplaced = displaced_colors code guess ∧
      fb.num_correct + fb.num_misplaced ≤ CODE_LENGTH := by
  have hr : ∀ i ∈ List.range CODE_LENGTH, i < CODE_LENGTH := fun i hi => List.mem_range.1 hi
  have hp0 : Paired (CheckState.mk 0 0 (zeroed NUM_COLORS) (zeroed NUM_COLORS)) :=
    ⟨rfl, by simp [zeroed]⟩
  obtain ⟨st1, h1, hp1, hm1, hn1, hk1⟩ := exact_loop_spec hc hg (List.range CODE_LENGTH) _ hr hp0
  obtain ⟨st2, h2, hp2, hn2, hc2, hb2, hk2⟩ :=
    misplaced_loop_spec hc hg (List.range CODE_LENGTH) st1 hr hp1
  simp only [marked_zeroed, Bool.false_or, Nat.zero_add] at hk1 hn1 hm1
  have hal : ∀ d, marked st1.code_used d = aligned code guess d := fun d => hk1 d
  refine ⟨{ num_correct := st2.num_correct, num_misplaced := st2.num_misplaced }, ?_, ?_, ?_, ?_⟩
  · simp [check_guess, h1, h2]
  · show st2.num_correct = exact_positions code guess
    rw [hn2, hn1]
    rfl
  · show st2.num_misplaced = displaced_colors code guess
    have hsum : marked_count st2.code_used
        = marked_count st1.code_used + displaced_colors code guess := by
      unfold marked_count displaced_colors
      apply countP_disjoint_or
      · intro k _
        rw [hk2, hal]
        cases ha : aligned code guess (k : Int)
        · simp only [Bool.false_or, Bool.not_false, Bool.and_true]
          rw [Bool.eq_iff_iff]
          simp only [List.any_eq_true, Bool.and_eq_true, decide_eq_true_eq, Bool.not_eq_true',
            decide_eq_false_iff_not]
          constructor
          · rintro ⟨i, _, ⟨hgi, _⟩, hmem⟩
            exact ⟨hmem, List.mem_iff_getElem?.2 ⟨i, hgi⟩⟩
          · rintro ⟨hmc, hmg⟩
            obtain ⟨i, hi, hgi⟩ := (hg.mem_iff _).1 hmg
            refine ⟨i, hi, ⟨hgi, ?_⟩, hmc⟩
            intro hci
            have : aligned code guess (k : Int) = true := by
              unfold aligned
              rw [List.any_eq_true]
              exact ⟨i, hi, by simp [hgi, hci]⟩
            rw [ha] at this
            exact Bool.noConfusion this
        · simp
      · intro k _ h
        rw [hal] at h
        obtain ⟨ha, hb⟩ := h
        simp [ha] at hb
    omega
  · show st2.num_correct + st2.num_misplaced ≤ CODE_LENGTH
    have hlen : (List.range CODE_LENGTH).countP (fun i => decide (guess[i]? = code[i]?))
        + (List.range CODE_LENGTH).countP (fun i => !decide (guess[i]? = code[i]?))
        = CODE_LENGTH := by
      have h := List.length_eq_countP_add_countP
        (fun i => decide (guess[i]? = code[i]?)) (List.range CODE_LENGTH)
      rw [List.length_range] at h
      have h2 : (List.range CODE_LENGTH).countP (fun i => !decide (guess[i]? = code[i]?))
          = (List.range CODE_LENGTH).countP
              (fun a => decide ¬decide (guess[a]? = code[a]?) = true) := by
        apply List.countP_congr
        intro x _
        simp
      omega
    omega

/-! ## Properties of `check_guess` -/

/-- C1: for every secret and guess of 4 colors in `0..5` (repeats allowed),
`check_guess` returns counters (natural numbers, so non-negative) with
`num_correct ≤ 4`, `num_misplaced ≤ 4` and `num_correct + num_misplaced ≤ 4`. -/
theorem check_guess_bounds (secret guess : List Int) (hs : IsCode secret) (hg : IsCode guess) :
    ∃ fb, check_guess secret guess = some fb ∧
      fb.num_correct ≤ 4 ∧ fb.num_misplaced ≤ 4 ∧ fb.num_correct + fb.num_misplaced ≤ 4 := by
  obtain ⟨fb, hfb, _, _, hsum⟩ := check_guess_run hs hg
  have h4 : CODE_LENGTH = 4 := rfl
  exact ⟨fb, hfb, by omega, by omega, by omega⟩

theorem check_guess_bounds_witness :
    ∃ fb, check_guess [ORANGE, ORANGE, BLUE, GREEN] [BLUE, ORANGE, ORANGE, RED] = some fb ∧
      fb.num_correct ≤ 4 ∧ fb.num_misplaced ≤ 4 ∧ fb.num_correct + fb.num_misplaced ≤ 4 :=
  check_guess_bounds [ORANGE, ORANGE, BLUE, GREEN] [BLUE, ORANGE, ORANGE, RED]
    (by decide) (by decide)

/-- C2: for the secret GROW and the guess BOGW, `check_guess` returns
`num_correct = 1` and `num_misplaced = 2`. -/
theorem check_guess_grow_bogw :
    check_guess [GREEN, RED, ORANGE, WHITE] [BLUE, ORANGE, GREEN, WHITE]
      = some { num_correct := 1, num_misplaced := 2 } := by
  decide

/-- C3, refuted as stated: for the secret [Green, Blue, Red, Yellow] and the
guess [Blue, Blue, Blue, Blue], `check_guess` does not return `(0, 1)`. -/
theorem check_guess_all_blue_not_0_1 :
    check_guess [GREEN, BLUE, RED, YELLOW] [BLUE, BLUE, BLUE, BLUE]
      ≠ some { num_correct := 0, num_misplaced := 1 } := by
  decide

/-- C3, amended: for the secret [Green, Blue, Red, Yellow] and the guess
[Blue, Blue, Blue, Blue], `check_guess` returns `(1, 0)`: the Blue at the second
position is an exact match, and no misplaced match is left. -/
theorem check_guess_all_blue :
    check_guess [GREEN, BLUE, RED, YELLOW] [BLUE, BLUE, BLUE, BLUE]
      = some { num_correct := 1, num_misplaced := 0 } := by
  decide

theorem exact_positions_self (xs : List Int) : exact_positions xs xs = CODE_LENGTH := by
  unfold exact_positions
  simp [List.countP_eq_length]

/-- C4: for every secret of 4 pairwise-distinct colors in `0..5`,
`check_guess(secret, secret)` returns `num_correct = 4` and `num_misplaced = 0`. -/
theorem check_guess_self (secret : List Int) (hs : IsCode secret) (_hd : secret.Nodup) :
    check_guess secret secret = some { num_correct := 4, num_misplaced := 0 } := by
  obtain ⟨fb, hfb, hc, _, hsum⟩ := check_guess_run hs hs
  rw [exact_positions_self] at hc
  have h4 : CODE_LENGTH = 4 := rfl
  rw [hfb]
  cases fb with
  | mk nc nm =>
    simp only at hc hsum
    have h1 : nc = 4 := by omega
    have h2 : nm = 0 := by omega
    rw [h1, h2]

theorem check_guess_self_witness :
    check_guess [RED, GREEN, ORANGE, BLUE] [RED, GREEN, ORANGE, BLUE]
      = some { num_correct := 4, num_misplaced := 0 } :=
  check_guess_self [RED, GREEN, ORANGE, BLUE] (by decide) (by decide)

/-- C5: for every secret and guess of 4 colors in `0..5` such that no color of
the guess occurs in the secret, `check_guess` returns `num_correct = 0` and
`num_misplaced = 0`. -/
theorem check_guess_disjoint (secret guess : List Int) (hs : IsCode secret) (hg : IsCode guess)
    (hdis : ∀ c ∈ guess, c ∉ secret) :
    check_guess secret guess = some { num_correct := 0, num_misplaced := 0 } := by
  obtain ⟨fb, hfb, hc, hm, _⟩ := check_guess_run hs hg
  have h0 : exact_positions secret guess = 0 := by
    unfold exact_positions
    rw [List.countP_eq_zero]
    intro i hi
    obtain ⟨g, hgi, _⟩ := hg.entry (List.mem_range.1 hi)
    intro he
    have he1 : guess[i]? = secret[i]? := by simpa using he
    exact hdis g (List.mem_iff_getElem?.2 ⟨i, hgi⟩)
      (List.mem_iff_getElem?.2 ⟨i, by rw [← he1]; exact hgi⟩)
  have h1 : displaced_colors secret guess = 0 := by
    unfold displaced_colors
    rw [List.countP_eq_zero]
    intro k _ hk
    simp only [Bool.and_eq_true, decide_eq_true_eq] at hk
    exact hdis _ hk.1.2 hk.1.1
  rw [hfb]
  cases fb with
  | mk nc nm =>
    simp only at hc hm
    rw [hc, hm, h0, h1]

theorem check_guess_disjoint_witness :
    check_guess [GREEN, BLUE, GREEN, RED] [ORANGE, WHITE, WHITE, YELLOW]
      = some { num_correct := 0, num_misplaced := 0 } :=
  check_guess_disjoint [GREEN, BLUE, GREEN, RED] [ORANGE, WHITE, WHITE, YELLOW]
    (by decide) (by decide) (by decide)

/-- C6: for every secret and guess of 4 colors in `0..5`, `check_guess` returns
as `num_correct` the number of positions `i` with `guess[i] = secret[i]`, and as
`num_misplaced` the number of distinct colors that occur in the secret and in
the guess and stand at no position in both (each counted once). -/
theorem check_guess_counts (secret guess : List Int) (hs : IsCode secret) (hg : IsCode guess) :
    check_guess secret guess
      = some { num_correct := exact_positions secret guess,
               num_misplaced := displaced_colors secret guess } := by
  obtain ⟨fb, hfb, hc, hm, _⟩ := check_guess_run hs hg
  rw [hfb]
  cases fb with
  | mk nc nm =>
    simp only at hc hm
    rw [hc, hm]

theorem check_guess_counts_witness :
    check_guess [GREEN, GREEN, BLUE, RED] [BLUE, GREEN, GREEN, WHITE]
      = some { num_correct := exact_positions [GREEN, GREEN, BLUE, RED] [BLUE, GREEN, GREEN, WHITE],
               num_misplaced :=
                 displaced_colors [GREEN, GREEN, BLUE, RED] [BLUE, GREEN, GREEN, WHITE] } :=
  check_guess_counts [GREEN, GREEN, BLUE, RED] [BLUE, GREEN, GREEN, WHITE]
    (by decide) (by decide)

/-! ## Properties of `generate_code` -/

theorem store_nat {a a1 : List Int} {i : Nat} {v : Int} (h : store a (i : Int) v = some a1) :
    i < a.length ∧ a1 = a.set i v := by
  unfold store at h
  split at h
  · rename_i hc
    simp only [Int.toNat_ofNat, Option.some.injEq] at h hc
    exact ⟨hc.2, h.symm⟩
  · simp at h

theorem draw_color_spec (used : List Int) :
    ∀ (draws : List Nat) (color : Int) (rest : List Nat),
    draw_color used draws = some (color, rest) → InRange color ∧ marked used color = false := by
  intro draws
  induction draws with
  | nil =>
    intro color rest h
    simp [draw_color] at h
  | cons r rs ih =>
    intro color rest h
    simp only [draw_color] at h
    cases hl : load used ((r % NUM_COLORS : Nat) : Int) with
    | none =>
      rw [hl] at h
      exact Option.noConfusion h
    | some u =>
      rw [hl] at h
      by_cases hu : u = 0
      · simp only [hu, ne_eq, not_true_eq_false, if_false, Option.some.injEq,
          Prod.mk.injEq] at h
        obtain ⟨hcol, _⟩ := h
        subst hcol
        have h6 : NUM_COLORS = 6 := rfl
        refine ⟨⟨by omega, ?_⟩, ?_⟩
        · rw [h6]; omega
        · exact (load_eq_zero_iff hl).1 hu
      · simp only [ne_eq, hu, not_false_eq_true, if_true] at h
        exact ih color rest h

theorem generate_loop_spec :
    ∀ (is : List Nat) (code used : List Int) (draws : List Nat) (out : List Int)
      (rest : List Nat), is.Nodup → generate_loop code used draws is = some (out, rest) →
    out.length = code.length ∧ (∀ j, j ∉ is → out[j]? = code[j]?) ∧
      (∀ i ∈ is, ∃ c, out[i]? = some c ∧ InRange c ∧ marked used c = false) ∧
      (∀ i ∈ is, ∀ j ∈ is, i ≠ j → out[i]? ≠ out[j]?) := by
  intro is
  induction is with
  | nil =>
    intro code used draws out rest _ h
    simp only [generate_loop, Option.some.injEq, Prod.mk.injEq] at h
    obtain ⟨h1, _⟩ := h
    subst h1
    simp
  | cons i is ih =>
    intro code used draws out rest hnd h
    rw [List.nodup_cons] at hnd
    simp only [generate_loop] at h
    cases hdc : draw_color used draws with
    | none => simp [hdc] at h
    | some pr =>
      obtain ⟨color, rest1⟩ := pr
      simp only [hdc] at h
      obtain ⟨hrange, hfree⟩ := draw_color_spec used draws color rest1 hdc
      cases hsu : store used color 1 with
      | none => simp [hsu] at h
      | some used1 =>
        simp only [hsu] at h
        cases hsc : store code (i : Int) color with
        | none => simp [hsc] at h
        | some code1 =>
          simp only [hsc] at h
          obtain ⟨hi, hcode1⟩ := store_nat hsc
          obtain ⟨hlen, hkeep, hnew, hdist⟩ := ih code1 used1 rest1 out rest hnd.2 h
          have hlen1 : code1.length = code.length := by rw [hcode1]; simp
          have hhead : out[i]? = some color := by
            rw [hkeep i hnd.1, hcode1]
            exact List.getElem?_set_self hi
          have htail : ∀ j ∈ is, ∃ c, out[j]? = some c ∧ InRange c ∧ c ≠ color ∧
              marked used c = false := by
            intro j hj
            obtain ⟨c, hc1, hc2, hc3⟩ := hnew j hj
            rw [marked_store hsu c] at hc3
            simp only [Bool.or_eq_false_iff, decide_eq_false_iff_not] at hc3
            exact ⟨c, hc1, hc2, hc3.1, hc3.2⟩
          refine ⟨hlen.trans hlen1, ?_, ?_, ?_⟩
          · intro j hj
            rw [List.mem_cons, not_or] at hj
            rw [hkeep j hj.2, hcode1]
            exact List.getElem?_set_ne (fun e => hj.1 e.symm)
          · intro j hj
            rcases List.mem_cons.1 hj with e | e
            · subst e
              exact ⟨color, hhead, hrange, hfree⟩
            · obtain ⟨c, hc1, hc2, _, hc4⟩ := htail j e
              exact ⟨c, hc1, hc2, hc4⟩
          · intro a ha b hb hab
            rcases List.mem_cons.1 ha with ea | ea <;> rcases List.mem_cons.1 hb with eb | eb
            · exact absurd (ea.trans eb.symm) hab
            · obtain ⟨c, hc1, _, hc3, _⟩ := htail b eb
              rw [ea, hhead, hc1]
              intro e
              exact hc3 (Option.some.inj e).symm
            · obtain ⟨c, hc1, _, hc3, _⟩ := htail a ea
              rw [eb, hhead, hc1]
              intro e
              exact hc3 (Option.some.inj e)
            · exact hdist a ea b eb hab

/-- C7: whenever `generate_code` terminates on the values the random source
returns, the array of `CODE_LENGTH` entries it has filled holds exactly 4
entries, each in the range `0..5`, and the 4 entries are pairwise distinct. -/
theorem generate_code_distinct (code : List Int) (draws : List Nat) (out : List Int)
    (rest : List Nat) (hlen : code.length = CODE_LENGTH)
    (h : generate_code code draws = some (out, rest)) :
    out.length = 4 ∧ (∀ c ∈ out, 0 ≤ c ∧ c ≤ 5) ∧ out.Nodup := by
  obtain ⟨hl, _, hnew, hdist⟩ :=
    generate_loop_spec (List.range CODE_LENGTH) code (zeroed NUM_COLORS) draws out rest
      (List.nodup_range _) h
  have hl4 : out.length = CODE_LENGTH := hl.trans hlen
  refine ⟨hl4, ?_, ?_⟩
  · intro c hc
    obtain ⟨n, hn⟩ := List.mem_iff_getElem?.1 hc
    have hn4 : n < CODE_LENGTH := by
      rw [← hl4]
      exact (List.getElem?_eq_some.1 hn).1
    obtain ⟨c1, hc1, hr, _⟩ := hnew n (List.mem_range.2 hn4)
    rw [hn] at hc1
    cases hc1
    have h6 : (NUM_COLORS : Int) = 6 := rfl
    have := hr.1
    have := hr.2
    constructor <;> omega
  · rw [List.nodup_iff_getElem?_ne_getElem?]
    intro i j hij hj
    rw [hl4] at hj
    exact hdist i (List.mem_range.2 (by omega)) j (List.mem_range.2 hj) (by omega)

theorem generate_code_distinct_witness :
    generate_code [9, 9, 9, 9] [7, 13, 2, 8, 3, 11, 4] = some ([1, 2, 3, 5], [4]) ∧
      ([1, 2, 3, 5] : List Int).length = 4 ∧ (∀ c ∈ ([1, 2, 3, 5] : List Int), 0 ≤ c ∧ c ≤ 5) ∧
      ([1, 2, 3, 5] : List Int).Nodup :=
  ⟨by decide,
    generate_code_distinct [9, 9, 9, 9] [7, 13, 2, 8, 3, 11, 4] [1, 2, 3, 5] [4]
      (by decide) (by decide)⟩

/-! ## Properties of `is_valid_guess` -/

theorem is_valid_guess_loop_spec (guess : List Int) :
    ∀ (is : List Nat) (is_used : List Int), is_used.length = NUM_COLORS →
      (∀ i ∈ is, i < guess.length) →
    ∃ b, is_valid_guess_loop guess is_used is = some b ∧
      (b = true ↔ ∀ i ∈ is, ∀ c, guess[i]? = some c → InRange c) := by
  intro is
  induction is with
  | nil =>
    intro is_used _ _
    exact ⟨true, rfl, by simp⟩
  | cons i is ih =>
    intro is_used hu his
    have hi : i < guess.length := his i (List.mem_cons_self _ _)
    have hgi : guess[i]? = some guess[i] := List.getElem?_eq_getElem hi
    by_cases hr : InRange guess[i]
    · have hcond : ¬ (guess[i] < 0 ∨ guess[i] ≥ (NUM_COLORS : Int)) := by
        unfold InRange at hr
        omega
      obtain ⟨u1, hu1⟩ := store_isSome is_used guess[i] 1 hr.1 (by rw [hu]; exact hr.2)
      obtain ⟨b, hb, hbi⟩ := ih u1 (by rw [store_length hu1]; exact hu)
        (fun j hj => his j (List.mem_cons_of_mem _ hj))
      refine ⟨b, ?_, ?_⟩
      · simp only [is_valid_guess_loop, hgi, hcond, if_false, hu1]
        exact hb
      · rw [hbi]
        constructor
        · intro h j hj c hc
          rcases List.mem_cons.1 hj with e | e
          · subst e
            rw [hgi] at hc
            cases hc
            exact hr
          · exact h j e c hc
        · intro h j hj
          exact h j (List.mem_cons_of_mem _ hj)
    · have hcond : guess[i] < 0 ∨ guess[i] ≥ (NUM_COLORS : Int) := by
        unfold InRange at hr
        omega
      refine ⟨false, ?_, ?_⟩
      · simp only [is_valid_guess_loop, hgi, hcond, if_true]
      · constructor
        · intro h
          exact Bool.noConfusion h
        · intro h
          exact absurd (h i (List.mem_cons_self _ _) _ hgi) hr

theorem is_valid_guess_spec (guess : List Int) (hlen : guess.length = CODE_LENGTH) :
    ∃ b, is_valid_guess guess = some b ∧ (b = true ↔ ∀ c ∈ guess, InRange c) := by
  obtain ⟨b, hb, hbi⟩ := is_valid_guess_loop_spec guess (List.range CODE_LENGTH)
    (zeroed NUM_COLORS) (by simp [zeroed])
    (fun i hi => by rw [hlen]; exact List.mem_range.1 hi)
  refine ⟨b, hb, ?_⟩
  rw [hbi]
  constructor
  · intro h c hc
    obtain ⟨n, hn⟩ := List.mem_iff_getElem?.1 hc
    have hn4 : n < CODE_LENGTH := by
      rw [← hlen]
      exact (List.getElem?_eq_some.1 hn).1
    exact h n (List.mem_range.2 hn4) c hn
  · intro h i _ c hc
    exact h c (List.mem_iff_getElem?.2 ⟨i, hc⟩)

/-- C8, refuted as stated: the 4-element guess OOBG repeats a color, all its
elements lie in `[0, NUM_COLORS)`, and `is_valid_guess` returns true for it. -/
theorem is_valid_guess_accepts_repeat :
    [ORANGE, ORANGE, BLUE, GREEN].length = 4 ∧ ¬ [ORANGE, ORANGE, BLUE, GREEN].Nodup ∧
      is_valid_guess [ORANGE, ORANGE, BLUE, GREEN] = some true := by
  decide

/-- C8, amended: `is_valid_guess` returns false for every 4-element guess in
which some element lies outside `[0, NUM_COLORS)`, and returns true exactly when
every element lies in `[0, NUM_COLORS)`; whether a color repeats plays no part. -/
theorem is_valid_guess_range_only (guess : List Int) (hlen : guess.length = 4) :
    ((∃ c ∈ guess, ¬ (0 ≤ c ∧ c < (NUM_COLORS : Int))) → is_valid_guess guess = some false) ∧
      (is_valid_guess guess = some true ↔ ∀ c ∈ guess, 0 ≤ c ∧ c < (NUM_COLORS : Int)) := by
  obtain ⟨b, hb, hbi⟩ := is_valid_guess_spec guess hlen
  rw [hb]
  constructor
  · rintro ⟨c, hc, hnr⟩
    cases b with
    | false => rfl
    | true => exact absurd (hbi.1 rfl c hc) hnr
  · have hiff : (∀ c ∈ guess, InRange c) ↔ ∀ c ∈ guess, 0 ≤ c ∧ c < (NUM_COLORS : Int) :=
      Iff.rfl
    rw [← hiff, ← hbi]
    simp

theorem is_valid_guess_range_only_witness :
    ((∃ c ∈ [BLUE, 6, BLUE, GREEN], ¬ (0 ≤ c ∧ c < (NUM_COLORS : Int))) →
        is_valid_guess [BLUE, 6, BLUE, GREEN] = some false) ∧
      (is_valid_guess [BLUE, 6, BLUE, GREEN] = some true ↔
        ∀ c ∈ [BLUE, 6, BLUE, GREEN], 0 ≤ c ∧ c < (NUM_COLORS : Int)) :=
  is_valid_guess_range_only [BLUE, 6, BLUE, GREEN] (by decide)

/-- C9: for every 4-element guess, `is_valid_guess` returns, and it returns
true if and only if each of the 4 elements is a color value in the range
`0 .. NUM_COLORS-1`; in particular the guess OOBG, which repeats a color, is valid. -/
theorem is_valid_guess_iff_in_range (guess : List Int) (hlen : guess.length = CODE_LENGTH) :
    is_valid_guess guess ≠ none ∧
      (is_valid_guess guess = some true ↔ ∀ c ∈ guess, 0 ≤ c ∧ c ≤ (NUM_COLORS : Int) - 1) ∧
      is_valid_guess [ORANGE, ORANGE, BLUE, GREEN] = some true := by
  obtain ⟨b, hb, hbi⟩ := is_valid_guess_spec guess hlen
  rw [hb]
  refine ⟨by simp, ?_, by decide⟩
  have hiff : (∀ c ∈ guess, InRange c) ↔ ∀ c ∈ guess, 0 ≤ c ∧ c ≤ (NUM_COLORS : Int) - 1 := by
    constructor
    · intro h c hc
      have := h c hc
      unfold InRange at this
      constructor <;> omega
    · intro h c hc
      have := h c hc
      unfold InRange
      constructor <;> omega
  rw [← hiff, ← hbi]
  simp

theorem is_valid_guess_iff_in_range_witness :
    is_valid_guess [WHITE, RED, WHITE, -1] ≠ none ∧
      (is_valid_guess [WHITE, RED, WHITE, -1] = some true ↔
        ∀ c ∈ [WHITE, RED, WHITE, -1], 0 ≤ c ∧ c ≤ (NUM_COLORS : Int) - 1) ∧
      is_valid_guess [ORANGE, ORANGE, BLUE, GREEN] = some true :=
  is_valid_guess_iff_in_range [WHITE, RED, WHITE, -1] (by decide)

/-! ## Properties of `get_guess` and `play_game` -/

theorem store_nat_isSome (a : List Int) (i : Nat) (v : Int) (h : i < a.length) :
    store a (i : Int) v = some (a.set i v) := by
  simp [store, h]

theorem get_guess_loop_length (word : List Char) :
    ∀ (n s : Nat) (guess : List Int), s ≤ word.length → s + n ≤ guess.length →
    ∃ g1, get_guess_loop (word ++ [Char.ofNat 0]) guess (List.range' s n) = some g1 ∧
      g1.length = guess.length := by
  intro n
  induction n with
  | zero =>
    intro s guess _ _
    exact ⟨guess, rfl, rfl⟩
  | succ n ih =>
    intro s guess hs hlen
    rw [List.range'_succ]
    by_cases hlt : s < word.length
    · have hc : (word ++ [Char.ofNat 0])[s]? = some word[s] := by
        rw [List.getElem?_append_left hlt]
        exact List.getElem?_eq_getElem hlt
      cases hcol : color_of_char word[s] with
      | none => exact ⟨guess, by simp [get_guess_loop, hc, hcol], rfl⟩
      | some color =>
        have hst := store_nat_isSome guess s color (by omega)
        obtain ⟨g1, hg1, hl1⟩ := ih (s + 1) (guess.set s color) hlt (by simp; omega)
        refine ⟨g1, ?_, by rw [hl1]; simp⟩
        simp only [get_guess_loop, hc, hcol, hst]
        exact hg1
    · have hse : s = word.length := by omega
      have hc : (word ++ [Char.ofNat 0])[s]? = some (Char.ofNat 0) := by
        rw [List.getElem?_append_right (by omega), hse]
        simp
      have hcol : color_of_char (Char.ofNat 0) = none := by decide
      exact ⟨guess, by simp [get_guess_loop, hc, hcol], rfl⟩

theorem scanned_fits {word : List Char} (hw : word.length ≤ CODE_LENGTH) :
    scanned word = some (word ++ [Char.ofNat 0]) := by
  unfold scanned
  rw [if_pos (by omega)]

theorem scanned_overrun {word : List Char} (hw : CODE_LENGTH < word.length) :
    scanned word = none := by
  unfold scanned
  rw [if_neg (by omega)]

theorem get_guess_fits (guess : List Int) {word : List Char} (hw : word.length ≤ CODE_LENGTH) :
    get_guess guess word
      = get_guess_loop (word ++ [Char.ofNat 0]) guess (List.range CODE_LENGTH) := by
  unfold get_guess
  rw [scanned_fits hw]

theorem get_guess_overrun (guess : List Int) {word : List Char}
    (hw : CODE_LENGTH < word.length) : get_guess guess word = none := by
  unfold get_guess
  rw [scanned_overrun hw]

theorem get_guess_length (guess : List Int) (word : List Char)
    (hlen : guess.length = CODE_LENGTH) (hw : word.length ≤ CODE_LENGTH) :
    ∃ g1, get_guess guess word = some g1 ∧ g1.length = CODE_LENGTH := by
  obtain ⟨g1, hg1, hl1⟩ := get_guess_loop_length word CODE_LENGTH 0 guess (Nat.zero_le _)
    (by omega)
  refine ⟨g1, ?_, hl1.trans hlen⟩
  rw [get_guess_fits guess hw, List.range_eq_range']
  exact hg1

theorem get_guess_some {guess g1 : List Int} {word : List Char}
    (hlen : guess.length = CODE_LENGTH) (h : get_guess guess word = some g1) :
    word.length ≤ CODE_LENGTH ∧ g1.length = CODE_LENGTH := by
  by_cases hw : word.length ≤ CODE_LENGTH
  · obtain ⟨g2, hg2, hl2⟩ := get_guess_length guess word hlen hw
    rw [h] at hg2
    cases hg2
    exact ⟨hw, hl2⟩
  · rw [get_guess_overrun guess (by omega)] at h
    exact Option.noConfusion h

theorem exact_positions_eq_iff {code guess : List Int} (hc : IsCode code) (hg : IsCode guess) :
    exact_positions code guess = CODE_LENGTH ↔ guess = code := by
  constructor
  · intro h
    unfold exact_positions at h
    have h1 : (List.range CODE_LENGTH).countP (fun i => decide (guess[i]? = code[i]?))
        = (List.range CODE_LENGTH).length := by rw [h, List.length_range]
    rw [List.countP_eq_length] at h1
    apply List.ext_getElem?
    intro n
    by_cases hn : n < CODE_LENGTH
    · simpa using h1 n (List.mem_range.2 hn)
    · rw [List.getElem?_eq_none (by rw [hg.1]; omega),
        List.getElem?_eq_none (by rw [hc.1]; omega)]
  · intro h
    rw [h]
    exact exact_positions_self code

theorem play_body_valid {code : List Int} (hc : IsCode code) {guess g1 : List Int}
    (i : Int) (turns : List Turn) {word : List Char} (hl1 : g1.length = CODE_LENGTH)
    (hg1 : get_guess guess word = some g1) (hv : is_valid_guess g1 = some true) :
    ∃ fb, play_body code guess i turns word =
      some (if g1 = code
        then BodyExit.ret true (turns ++ [{ attempt := i, guess := g1, feedback := fb }])
        else BodyExit.cont g1 i (turns ++ [{ attempt := i, guess := g1, feedback := fb }])) := by
  obtain ⟨b, hb, hbi⟩ := is_valid_guess_spec g1 hl1
  rw [hv] at hb
  cases hb
  have hcode1 : IsCode g1 := ⟨hl1, hbi.1 rfl⟩
  obtain ⟨fb, hfb, hnc, _, _⟩ := check_guess_run hc hcode1
  refine ⟨fb, ?_⟩
  have hwin : fb.num_correct = CODE_LENGTH ↔ g1 = code := by
    rw [hnc]
    exact exact_positions_eq_iff hc hcode1
  by_cases he : g1 = code
  · simp only [play_body, hg1, hv, hfb, hwin.2 he, if_true, if_pos he]
  · have hn : ¬ fb.num_correct = CODE_LENGTH := fun h => he (hwin.1 h)
    simp only [play_body, hg1, hv, hfb, hn, if_false, if_neg he]

theorem play_loop_lost {code : List Int} (hc : IsCode code) :
    ∀ (inputs : List (List Char)) (guess : List Int) (m : Nat) (i : Int) (turns : List Turn),
    guess.length = CODE_LENGTH → i + (m : Int) = (MAX_GUESSES : Int) →
    (∀ g ∈ guess_buffers guess inputs, is_valid_guess g = some true) →
    m ≤ (guess_buffers guess inputs).length →
    (∀ g ∈ (guess_buffers guess inputs).take m, g ≠ code) →
    ∃ r, play_loop code inputs guess i turns = some r ∧ r.won = false ∧
      r.turns.map Turn.guess = turns.map Turn.guess ++ (guess_buffers guess inputs).take m ∧
      r.unread = inputs.drop m := by
  intro inputs
  induction inputs with
  | nil =>
    intro guess m i turns _ hi _ hm _
    have hm0 : m = 0 := by simpa [guess_buffers] using hm
    subst hm0
    have hnot : ¬ i < (MAX_GUESSES : Int) := by omega
    exact ⟨{ won := false, turns := turns, unread := [] }, by simp [play_loop, hnot], rfl,
      by simp, rfl⟩
  | cons word rest ih =>
    intro guess m i turns hlen hi hv hm hne
    cases m with
    | zero =>
      have hnot : ¬ i < (MAX_GUESSES : Int) := by omega
      exact ⟨{ won := false, turns := turns, unread := word :: rest },
        by simp [play_loop, hnot], rfl, by simp, rfl⟩
    | succ m =>
      have hlt : i < (MAX_GUESSES : Int) := by omega
      obtain ⟨g1, hg1⟩ : ∃ g1, get_guess guess word = some g1 := by
        cases hgg : get_guess guess word with
        | none => simp [guess_buffers, hgg] at hm
        | some g1 => exact ⟨g1, rfl⟩
      have hl1 : g1.length = CODE_LENGTH := (get_guess_some hlen hg1).2
      have hbuf : guess_buffers guess (word :: rest) = g1 :: guess_buffers g1 rest := by
        simp [guess_buffers, hg1]
      rw [hbuf] at hv hne hm ⊢
      have hv1 : is_valid_guess g1 = some true := hv g1 (List.mem_cons_self _ _)
      have hne1 : g1 ≠ code := hne g1 (by simp)
      obtain ⟨fb, hfb⟩ := play_body_valid hc i turns hl1 hg1 hv1
      rw [if_neg hne1] at hfb
      obtain ⟨r, hr, hw, ht, hu⟩ := ih g1 m (i + 1)
        (turns ++ [{ attempt := i, guess := g1, feedback := fb }]) hl1
        (by push_cast at hi; omega)
        (fun g hg => hv g (List.mem_cons_of_mem _ hg))
        (by simpa using hm)
        (fun g hg => hne g (by rw [List.take_succ_cons]; exact List.mem_cons_of_mem _ hg))
      refine ⟨r, ?_, hw, ?_, ?_⟩
      · simp only [play_loop, hlt, if_true, hfb]
        exact hr
      · rw [ht]
        simp
      · rw [hu]
        simp

theorem play_loop_won {code : List Int} (hc : IsCode code) :
    ∀ (inputs : List (List Char)) (guess : List Int) (k : Nat) (i : Int) (turns : List Turn),
    guess.length = CODE_LENGTH → i + (k : Int) < (MAX_GUESSES : Int) →
    (∀ g ∈ guess_buffers guess inputs, is_valid_guess g = some true) →
    (guess_buffers guess inputs)[k]? = some code →
    (∀ g ∈ (guess_buffers guess inputs).take k, g ≠ code) →
    ∃ r, play_loop code inputs guess i turns = some r ∧ r.won = true ∧
      r.turns.map Turn.guess
        = turns.map Turn.guess ++ (guess_buffers guess inputs).take (k + 1) ∧
      r.unread = inputs.drop (k + 1) := by
  intro inputs
  induction inputs with
  | nil =>
    intro guess k i turns _ _ _ hk _
    simp [guess_buffers] at hk
  | cons word rest ih =>
    intro guess k i turns hlen hi hv hk hne
    have hlt : i < (MAX_GUESSES : Int) := by omega
    obtain ⟨g1, hg1⟩ : ∃ g1, get_guess guess word = some g1 := by
      cases hgg : get_guess guess word with
      | none => simp [guess_buffers, hgg] at hk
      | some g1 => exact ⟨g1, rfl⟩
    have hl1 : g1.length = CODE_LENGTH := (get_guess_some hlen hg1).2
    have hbuf : guess_buffers guess (word :: rest) = g1 :: guess_buffers g1 rest := by
      simp [guess_buffers, hg1]
    rw [hbuf] at hv hne hk ⊢
    have hv1 : is_valid_guess g1 = some true := hv g1 (List.mem_cons_self _ _)
    obtain ⟨fb, hfb⟩ := play_body_valid hc i turns hl1 hg1 hv1
    cases k with
    | zero =>
      have he : g1 = code := by simpa using hk
      rw [if_pos he] at hfb
      refine ⟨{ won := true,
                turns := turns ++ [{ attempt := i, guess := g1, feedback := fb }],
                unread := rest }, ?_, rfl, ?_, ?_⟩
      · simp only [play_loop, hlt, if_true, hfb]
      · simp
      · simp
    | succ k =>
      have hne1 : g1 ≠ code := hne g1 (by simp)
      rw [if_neg hne1] at hfb
      obtain ⟨r, hr, hw, ht, hu⟩ := ih g1 k (i + 1)
        (turns ++ [{ attempt := i, guess := g1, feedback := fb }]) hl1
        (by push_cast at hi; omega)
        (fun g hg => hv g (List.mem_cons_of_mem _ hg))
        (by simpa using hk)
        (fun g hg => hne g (by rw [List.take_succ_cons]; exact List.mem_cons_of_mem _ hg))
      refine ⟨r, ?_, hw, ?_, ?_⟩
      · simp only [play_loop, hlt, if_true, hfb]
        exact hr
      · rw [ht]
        simp
      · rw [hu]
        simp

theorem guess_buffers_length :
    ∀ (inputs : List (List Char)) (guess : List Int), guess.length = CODE_LENGTH →
    (∀ w ∈ inputs, w.length ≤ CODE_LENGTH) →
    (guess_buffers guess inputs).length = inputs.length := by
  intro inputs
  induction inputs with
  | nil =>
    intro guess _ _
    rfl
  | cons word rest ih =>
    intro guess hlen hws
    obtain ⟨g1, hg1, hl1⟩ := get_guess_length guess word hlen
      (hws word (List.mem_cons_self _ _))
    simp [guess_buffers, hg1, ih g1 hl1 (fun w hw => hws w (List.mem_cons_of_mem _ hw))]

/-- C10: for every secret of 4 colors in `0..5` and every input on which each
guess that `get_guess` leaves in the array passes `is_valid_guess` (the guesses
are those of the calls of `get_guess` that succeed: a word that overruns
`guess_str` ends the sequence): if there are at least 4 guesses and none of the
first 4 equals the secret, `play_game` returns false after scoring exactly those
4 guesses; if the first guess equal to the secret is the `k`-th with
`1 ≤ k ≤ 4`, `play_game` returns true after scoring exactly the first `k`
guesses and leaves every later input word unread. -/
theorem play_game_outcome (code guess0 : List Int) (inputs : List (List Char))
    (hc : IsCode code) (h0 : guess0.length = CODE_LENGTH)
    (hv : ∀ g ∈ guess_buffers guess0 inputs, is_valid_guess g = some true) :
    (MAX_GUESSES ≤ (guess_buffers guess0 inputs).length →
      (∀ g ∈ (guess_buffers guess0 inputs).take MAX_GUESSES, g ≠ code) →
      ∃ r, play_game code guess0 inputs = some r ∧ r.won = false ∧ r.turns.length = 4 ∧
        r.turns.map Turn.guess = (guess_buffers guess0 inputs).take 4 ∧
        r.unread = inputs.drop 4) ∧
    (∀ k, 1 ≤ k → k ≤ 4 → (guess_buffers guess0 inputs)[k - 1]? = some code →
      (∀ g ∈ (guess_buffers guess0 inputs).take (k - 1), g ≠ code) →
      ∃ r, play_game code guess0 inputs = some r ∧ r.won = true ∧ r.turns.length = k ∧
        r.turns.map Turn.guess = (guess_buffers guess0 inputs).take k ∧
        r.unread = inputs.drop k) := by
  have h4 : MAX_GUESSES = 4 := rfl
  constructor
  · intro hm hne
    obtain ⟨r, hr, hw, ht, hu⟩ := play_loop_lost hc inputs guess0 MAX_GUESSES 0 [] h0
      (by simp) hv hm hne
    simp only [List.map_nil, List.nil_append] at ht
    refine ⟨r, hr, hw, ?_, ht, hu⟩
    have := congrArg List.length ht
    simp only [List.length_map, List.length_take] at this
    omega
  · intro k hk1 hk4 hkth hne
    obtain ⟨j, rfl⟩ : ∃ j, k = j + 1 := ⟨k - 1, by omega⟩
    simp only [Nat.add_sub_cancel] at hkth hne
    obtain ⟨r, hr, hw, ht, hu⟩ := play_loop_won hc inputs guess0 j 0 [] h0
      (by rw [h4]; push_cast; omega) hv hkth hne
    simp only [List.map_nil, List.nil_append] at ht
    refine ⟨r, hr, hw, ?_, ht, hu⟩
    have hj : j < (guess_buffers guess0 inputs).length := (List.getElem?_eq_some.1 hkth).1
    have := congrArg List.length ht
    simp only [List.length_map, List.length_take] at this
    omega

theorem play_game_outcome_witness :
    (∃ r, play_game [GREEN, RED, ORANGE, WHITE] [7, 7, 7, 7]
          ["BOGW".toList, "GRWO".toList, "YYYY".toList, "WORG".toList, "GROW".toList] = some r ∧
        r.won = false ∧ r.turns.length = 4 ∧
        r.turns.map Turn.guess =
          (guess_buffers [7, 7, 7, 7]
            ["BOGW".toList, "GRWO".toList, "YYYY".toList, "WORG".toList, "GROW".toList]).take 4 ∧
        r.unread =
          ["BOGW".toList, "GRWO".toList, "YYYY".toList, "WORG".toList, "GROW".toList].drop 4) ∧
    (∃ r, play_game [GREEN, RED, ORANGE, WHITE] [7, 7, 7, 7]
          ["BOGW".toList, "GROW".toList, "GGGG".toList] = some r ∧
        r.won = true ∧ r.turns.length = 2 ∧
        r.turns.map Turn.guess =
          (guess_buffers [7, 7, 7, 7] ["BOGW".toList, "GROW".toList, "GGGG".toList]).take 2 ∧
        r.unread = ["BOGW".toList, "GROW".toList, "GGGG".toList].drop 2) :=
  ⟨(play_game_outcome [GREEN, RED, ORANGE, WHITE] [7, 7, 7, 7]
      ["BOGW".toList, "GRWO".toList, "YYYY".toList, "WORG".toList, "GROW".toList]
      (by decide) (by decide) (by decide)).1 (by decide) (by decide),
   (play_game_outcome [GREEN, RED, ORANGE, WHITE] [7, 7, 7, 7]
      ["BOGW".toList, "GROW".toList, "GGGG".toList]
      (by decide) (by decide) (by decide)).2 2 (by decide) (by decide) (by decide) (by decide)⟩

/-! ## Invalid and repeated guesses in `play_game` -/

theorem play_loop_step (code : List Int) (word : List Char) (rest : List (List Char))
    (guess : List Int) (i : Int) (turns : List Turn) (hi : i < (MAX_GUESSES : Int)) :
    play_loop code (word :: rest) guess i turns =
      match play_body code guess i turns word with
      | none => none
      | some (BodyExit.ret won turns1) => some { won := won, turns := turns1, unread := rest }
      | some (BodyExit.cont guess1 i1 turns1) => play_loop code rest guess1 (i1 + 1) turns1 := by
  simp only [play_loop, hi, if_true]

/-- C11: in `play_game`, when the guess that `get_guess` leaves for attempt
`i + 1` holds a symbol outside `0..5`, the loop body makes no call of
`check_guess` (the list of scored turns is unchanged) and the next iteration
runs with the same value of `i`: the attempt is not consumed. -/
theorem invalid_guess_not_consumed (code guess g1 : List Int) (i : Int) (turns : List Turn)
    (word : List Char) (rest : List (List Char)) (hlen : guess.length = CODE_LENGTH)
    (hg1 : get_guess guess word = some g1) (hbad : ∃ c ∈ g1, ¬ InRange c)
    (hi : i < (MAX_GUESSES : Int)) :
    is_valid_guess g1 = some false ∧
      play_body code guess i turns word = some (BodyExit.cont g1 (i - 1) turns) ∧
      play_loop code (word :: rest) guess i turns = play_loop code rest g1 i turns := by
  have hl2 : g1.length = CODE_LENGTH := (get_guess_some hlen hg1).2
  obtain ⟨b, hb, hbi⟩ := is_valid_guess_spec g1 hl2
  obtain ⟨c, hc, hnr⟩ := hbad
  have hfalse : b = false := by
    cases b with
    | false => rfl
    | true => exact absurd (hbi.1 rfl c hc) hnr
  subst hfalse
  have hbody : play_body code guess i turns word = some (BodyExit.cont g1 (i - 1) turns) := by
    simp only [play_body, hg1, hb]
  refine ⟨hb, hbody, ?_⟩
  rw [play_loop_step code word rest guess i turns hi, hbody]
  simp

theorem invalid_guess_not_consumed_witness :
    is_valid_guess [GREEN, 7, 7, 7] = some false ∧
      play_body [GREEN, RED, ORANGE, WHITE] [7, 7, 7, 7] 0 [] "GX".toList
        = some (BodyExit.cont [GREEN, 7, 7, 7] (0 - 1) []) ∧
      play_loop [GREEN, RED, ORANGE, WHITE] ["GX".toList, "GROW".toList] [7, 7, 7, 7] 0 []
        = play_loop [GREEN, RED, ORANGE, WHITE] ["GROW".toList] [GREEN, 7, 7, 7] 0 [] :=
  invalid_guess_not_consumed [GREEN, RED, ORANGE, WHITE] [7, 7, 7, 7] [GREEN, 7, 7, 7] 0 []
    "GX".toList ["GROW".toList] (by decide) (by decide) (by decide) (by decide)

/-- C12, the code at a failing input: with the secret GROW, the word BOGW is
scored as the first guess; each of the three following words XRGB starts with
a character that is no color letter, so `get_guess` returns at once and leaves
BOGW in the array, which passes the validity check of `play_game`: BOGW is
scored again for the attempts 2, 3 and 4 and the game is lost. -/
theorem rejected_word_is_scored :
    get_guess [BLUE, ORANGE, GREEN, WHITE] "XRGB".toList = some [BLUE, ORANGE, GREEN, WHITE] ∧
      play_game [GREEN, RED, ORANGE, WHITE] [7, 7, 7, 7]
          ["BOGW".toList, "XRGB".toList, "XRGB".toList, "XRGB".toList]
        = some { won := false,
                 turns := [
                   { attempt := 0, guess := [BLUE, ORANGE, GREEN, WHITE],
                     feedback := { num_correct := 1, num_misplaced := 2 } },
                   { attempt := 1, guess := [BLUE, ORANGE, GREEN, WHITE],
                     feedback := { num_correct := 1, num_misplaced := 2 } },
                   { attempt := 2, guess := [BLUE, ORANGE, GREEN, WHITE],
                     feedback := { num_correct := 1, num_misplaced := 2 } },
                   { attempt := 3, guess := [BLUE, ORANGE, GREEN, WHITE],
                     feedback := { num_correct := 1, num_misplaced := 2 } }],
                 unread := [] } := by
  decide

/-- C18: in `play_game`, a guess of 4 colors in `0..5` that repeats a color
passes the validity check, is scored by `check_guess` (a turn is recorded) and
uses up the attempt: the game ends there when the guess is the code, and
otherwise the next iteration runs with `i + 1`. -/
theorem repeated_guess_scored (code guess g1 : List Int) (i : Int) (turns : List Turn)
    (word : List Char) (rest : List (List Char)) (hc : IsCode code)
    (hg1 : get_guess guess word = some g1) (hcode1 : IsCode g1) (_hrep : ¬ g1.Nodup)
    (hi : i < (MAX_GUESSES : Int)) :
    is_valid_guess g1 = some true ∧
      ∃ fb, check_guess code g1 = some fb ∧
        play_loop code (word :: rest) guess i turns =
          if g1 = code then
            some { won := true,
                   turns := turns ++ [{ attempt := i, guess := g1, feedback := fb }],
                   unread := rest }
          else
            play_loop code rest g1 (i + 1)
              (turns ++ [{ attempt := i, guess := g1, feedback := fb }]) := by
  obtain ⟨b, hb, hbi⟩ := is_valid_guess_spec g1 hcode1.1
  have hbt : b = true := hbi.2 hcode1.2
  subst hbt
  obtain ⟨fb, hfb⟩ := play_body_valid hc i turns hcode1.1 hg1 hb
  obtain ⟨fb1, hfb1, _⟩ := check_guess_run hc hcode1
  have hsame : check_guess code g1 = some fb := by
    by_cases he : g1 = code
    · rw [if_pos he] at hfb
      simp only [play_body, hg1, hb, hfb1] at hfb
      split at hfb
      · simp only [Option.some.injEq, BodyExit.ret.injEq, true_and] at hfb
        have := List.append_cancel_left hfb
        simp only [List.cons.injEq, Turn.mk.injEq, true_and, and_true] at this
        rw [hfb1, this]
      · simp at hfb
    · rw [if_neg he] at hfb
      simp only [play_body, hg1, hb, hfb1] at hfb
      split at hfb
      · simp at hfb
      · simp only [Option.some.injEq, BodyExit.cont.injEq, true_and] at hfb
        have := List.append_cancel_left hfb
        simp only [List.cons.injEq, Turn.mk.injEq, true_and, and_true] at this
        rw [hfb1, this]
  refine ⟨hb, fb, hsame, ?_⟩
  rw [play_loop_step code word rest guess i turns hi, hfb]
  by_cases he : g1 = code
  · simp only [if_pos he]
  · simp only [if_neg he]

theorem repeated_guess_scored_witness :
    is_valid_guess [ORANGE, ORANGE, BLUE, GREEN] = some true ∧
      ∃ fb, check_guess [GREEN, RED, ORANGE, WHITE] [ORANGE, ORANGE, BLUE, GREEN] = some fb ∧
        play_loop [GREEN, RED, ORANGE, WHITE] ["OOBG".toList, "GROW".toList] [7, 7, 7, 7] 0 [] =
          if [ORANGE, ORANGE, BLUE, GREEN] = [GREEN, RED, ORANGE, WHITE] then
            some { won := true,
                   turns := [] ++
                     [{ attempt := 0, guess := [ORANGE, ORANGE, BLUE, GREEN], feedback := fb }],
                   unread := ["GROW".toList] }
          else
            play_loop [GREEN, RED, ORANGE, WHITE] ["GROW".toList] [ORANGE, ORANGE, BLUE, GREEN]
              (0 + 1)
              ([] ++ [{ attempt := 0, guess := [ORANGE, ORANGE, BLUE, GREEN], feedback := fb }]) :=
  repeated_guess_scored [GREEN, RED, ORANGE, WHITE] [7, 7, 7, 7] [ORANGE, ORANGE, BLUE, GREEN]
    0 [] "OOBG".toList ["GROW".toList] (by decide) (by decide) (by decide) (by decide)
    (by decide)

/-! ## Winning, symmetry and array bounds -/

theorem exact_positions_eq_iff_forall (secret guess : List Int) :
    exact_positions secret guess = CODE_LENGTH ↔
      ∀ i, i < CODE_LENGTH → guess[i]? = secret[i]? := by
  unfold exact_positions
  have h : (List.range CODE_LENGTH).countP (fun i => decide (guess[i]? = secret[i]?))
      = CODE_LENGTH ↔
      (List.range CODE_LENGTH).countP (fun i => decide (guess[i]? = secret[i]?))
        = (List.range CODE_LENGTH).length := by rw [List.length_range]
  rw [h, List.countP_eq_length]
  constructor
  · intro hall i hi
    simpa using hall i (List.mem_range.2 hi)
  · intro hall i hi
    simpa using hall i (List.mem_range.1 hi)

/-- C15: for every secret and guess of 4 colors in `0..5`, `check_guess`
returns `num_correct = CODE_LENGTH` if and only if `guess[i] = secret[i]` at all
4 positions; hence whenever the loop body of `play_game` returns, it returns
true and the guess it has just read is exactly the secret. -/
theorem win_iff_guess_is_secret (secret guess buf : List Int) (i : Int) (turns turns1 : List Turn)
    (word : List Char) (won : Bool) (hs : IsCode secret) (hg : IsCode guess)
    (hbuf : buf.length = CODE_LENGTH) :
    (∃ fb, check_guess secret guess = some fb ∧
      (fb.num_correct = CODE_LENGTH ↔ ∀ j, j < 4 → guess[j]? = secret[j]?)) ∧
    (play_body secret buf i turns word = some (BodyExit.ret won turns1) →
      won = true ∧ get_guess buf word = some secret) := by
  constructor
  · obtain ⟨fb, hfb, hnc, _, _⟩ := check_guess_run hs hg
    refine ⟨fb, hfb, ?_⟩
    rw [hnc]
    exact exact_positions_eq_iff_forall secret guess
  · intro hret
    obtain ⟨g1, hg1⟩ : ∃ g1, get_guess buf word = some g1 := by
      cases hgg : get_guess buf word with
      | none =>
        simp only [play_body, hgg] at hret
        exact absurd hret (by simp)
      | some g1 => exact ⟨g1, rfl⟩
    have hl1 : g1.length = CODE_LENGTH := (get_guess_some hbuf hg1).2
    obtain ⟨b, hb, _⟩ := is_valid_guess_spec g1 hl1
    cases b with
    | false =>
      simp only [play_body, hg1, hb] at hret
      exact absurd hret (by simp)
    | true =>
      obtain ⟨fb, hfb⟩ := play_body_valid hs i turns hl1 hg1 hb
      rw [hfb] at hret
      by_cases he : g1 = secret
      · rw [if_pos he] at hret
        simp only [Option.some.injEq, BodyExit.ret.injEq] at hret
        exact ⟨hret.1.symm, by rw [hg1, he]⟩
      · rw [if_neg he] at hret
        exact absurd hret (by simp)

theorem win_iff_guess_is_secret_witness :
    (∃ fb, check_guess [GREEN, RED, ORANGE, WHITE] [GREEN, RED, WHITE, WHITE] = some fb ∧
      (fb.num_correct = CODE_LENGTH ↔
        ∀ j, j < 4 → [GREEN, RED, WHITE, WHITE][j]? = [GREEN, RED, ORANGE, WHITE][j]?)) ∧
    (play_body [GREEN, RED, ORANGE, WHITE] [7, 7, 7, 7] 1 [] "GROW".toList
        = some (BodyExit.ret true
            [{ attempt := 1, guess := [GREEN, RED, ORANGE, WHITE],
               feedback := { num_correct := 4, num_misplaced := 0 } }]) →
      true = true ∧ get_guess [7, 7, 7, 7] "GROW".toList = some [GREEN, RED, ORANGE, WHITE]) :=
  win_iff_guess_is_secret [GREEN, RED, ORANGE, WHITE] [GREEN, RED, WHITE, WHITE] [7, 7, 7, 7] 1 []
    [{ attempt := 1, guess := [GREEN, RED, ORANGE, WHITE],
       feedback := { num_correct := 4, num_misplaced := 0 } }]
    "GROW".toList true (by decide) (by decide) (by decide)

theorem aligned_comm (a b : List Int) (c : Int) : aligned a b c = aligned b a c := by
  unfold aligned
  congr 1
  funext i
  exact Bool.and_comm _ _

theorem exact_positions_comm (a b : List Int) : exact_positions a b = exact_positions b a := by
  unfold exact_positions
  apply List.countP_congr
  intro i _
  simp only [decide_eq_true_eq]
  exact eq_comm

theorem displaced_colors_comm (a b : List Int) : displaced_colors a b = displaced_colors b a := by
  unfold displaced_colors
  apply List.countP_congr
  intro k _
  rw [aligned_comm a b]
  simp only [Bool.and_eq_true, decide_eq_true_eq]
  tauto

/-- C19: `check_guess` is symmetric in its two code arguments: for all
sequences `a` and `b` of 4 colors in `0..5` (repeats allowed in both),
`check_guess(a, b)` and `check_guess(b, a)` return the same `num_correct` and
the same `num_misplaced`. -/
theorem check_guess_symmetric (a b : List Int) (ha : IsCode a) (hb : IsCode b) :
    ∃ fb, check_guess a b = some fb ∧ check_guess b a = some fb := by
  obtain ⟨fb, hfb, hc, hm, _⟩ := check_guess_run ha hb
  obtain ⟨fb1, hfb1, hc1, hm1, _⟩ := check_guess_run hb ha
  refine ⟨fb, hfb, ?_⟩
  rw [hfb1]
  cases fb with
  | mk nc nm =>
    cases fb1 with
    | mk nc1 nm1 =>
      simp only at hc hm hc1 hm1
      rw [hc, hm, hc1, hm1, exact_positions_comm a b, displaced_colors_comm a b]

theorem check_guess_symmetric_witness :
    ∃ fb, check_guess [GREEN, GREEN, BLUE, RED] [BLUE, GREEN, RED, RED] = some fb ∧
      check_guess [BLUE, GREEN, RED, RED] [GREEN, GREEN, BLUE, RED] = some fb :=
  check_guess_symmetric [GREEN, GREEN, BLUE, RED] [BLUE, GREEN, RED, RED] (by decide) (by decide)

theorem generate_code_isCode {code out : List Int} {draws rest : List Nat}
    (hlen : code.length = CODE_LENGTH) (h : generate_code code draws = some (out, rest)) :
    IsCode out := by
  obtain ⟨hl, _, hnew, _⟩ :=
    generate_loop_spec (List.range CODE_LENGTH) code (zeroed NUM_COLORS) draws out rest
      (List.nodup_range _) h
  have hl4 : out.length = CODE_LENGTH := hl.trans hlen
  refine ⟨hl4, ?_⟩
  intro c hc
  obtain ⟨n, hn⟩ := List.mem_iff_getElem?.1 hc
  have hn4 : n < CODE_LENGTH := by
    rw [← hl4]
    exact (List.getElem?_eq_some.1 hn).1
  obtain ⟨c1, hc1, hr, _⟩ := hnew n (List.mem_range.2 hn4)
  rw [hn] at hc1
  cases hc1
  exact hr

/-- C20: whenever the secret comes from `generate_code` and the 4-element guess
passes `is_valid_guess`, every entry of both arrays, and so every index
`check_guess` uses into `code_used` and `guess_used`, lies in
`0 .. NUM_COLORS-1`, and `check_guess` runs without an out-of-bounds access;
`is_valid_guess` itself runs without an out-of-bounds access on every
4-element array `g`, whatever its entries. -/
theorem check_guess_in_bounds (code0 secret guess g : List Int) (draws rest : List Nat)
    (h0 : code0.length = CODE_LENGTH) (hgen : generate_code code0 draws = some (secret, rest))
    (hlen : guess.length = CODE_LENGTH) (hv : is_valid_guess guess = some true)
    (hgl : g.length = CODE_LENGTH) :
    (∀ c ∈ secret, 0 ≤ c ∧ c ≤ (NUM_COLORS : Int) - 1) ∧
      (∀ c ∈ guess, 0 ≤ c ∧ c ≤ (NUM_COLORS : Int) - 1) ∧
      check_guess secret guess ≠ none ∧ is_valid_guess g ≠ none := by
  have hs : IsCode secret := generate_code_isCode h0 hgen
  obtain ⟨b, hb, hbi⟩ := is_valid_guess_spec guess hlen
  rw [hv] at hb
  cases hb
  have hg : IsCode guess := ⟨hlen, hbi.1 rfl⟩
  obtain ⟨fb, hfb, _⟩ := check_guess_run hs hg
  have hrange : ∀ xs : List Int, IsCode xs → ∀ c ∈ xs, 0 ≤ c ∧ c ≤ (NUM_COLORS : Int) - 1 := by
    intro xs hxs c hc
    have := hxs.2 c hc
    unfold InRange at this
    constructor <;> omega
  obtain ⟨b1, hb1, _⟩ := is_valid_guess_spec g hgl
  exact ⟨hrange secret hs, hrange guess hg, by rw [hfb]; simp, by rw [hb1]; simp⟩

theorem check_guess_in_bounds_witness :
    (∀ c ∈ ([1, 2, 3, 5] : List Int), 0 ≤ c ∧ c ≤ (NUM_COLORS : Int) - 1) ∧
      (∀ c ∈ [ORANGE, ORANGE, BLUE, GREEN], 0 ≤ c ∧ c ≤ (NUM_COLORS : Int) - 1) ∧
      check_guess [1, 2, 3, 5] [ORANGE, ORANGE, BLUE, GREEN] ≠ none ∧
      is_valid_guess [-3, 12, 99, 0] ≠ none :=
  check_guess_in_bounds [9, 9, 9, 9] [1, 2, 3, 5] [ORANGE, ORANGE, BLUE, GREEN] [-3, 12, 99, 0]
    [7, 13, 2, 8, 3, 11, 4] [4] (by decide) (by decide) (by decide) (by decide) (by decide)

/-! ## The counters of `main` -/

theorem color_of_letter {ch : Char} (h : IsLetter ch) :
    ∃ col, color_of_char ch = some col ∧ InRange col ∧ char_of_color col = some ch := by
  rcases h with h | h | h | h | h | h <;> subst h
  · exact ⟨GREEN, by decide, by decide, by decide⟩
  · exact ⟨BLUE, by decide, by decide, by decide⟩
  · exact ⟨RED, by decide, by decide, by decide⟩
  · exact ⟨YELLOW, by decide, by decide, by decide⟩
  · exact ⟨WHITE, by decide, by decide, by decide⟩
  · exact ⟨ORANGE, by decide, by decide, by decide⟩

theorem letter_of_color {c : Int} (h : InRange c) :
    ∃ ch, char_of_color c = some ch ∧ IsLetter ch ∧ color_of_char ch = some c := by
  have h6 : (NUM_COLORS : Int) = 6 := rfl
  have hcases : c = 0 ∨ c = 1 ∨ c = 2 ∨ c = 3 ∨ c = 4 ∨ c = 5 := by
    unfold InRange at h
    omega
  rcases hcases with e | e | e | e | e | e <;> subst e
  · exact ⟨'G', by decide, by decide, by decide⟩
  · exact ⟨'B', by decide, by decide, by decide⟩
  · exact ⟨'R', by decide, by decide, by decide⟩
  · exact ⟨'Y', by decide, by decide, by decide⟩
  · exact ⟨'W', by decide, by decide, by decide⟩
  · exact ⟨'O', by decide, by decide, by decide⟩

theorem get_guess_loop_letters (word : List Char) :
    ∀ (n s : Nat) (guess : List Int), s + n ≤ word.length → s + n ≤ guess.length →
      (∀ ch ∈ word, IsLetter ch) →
    ∃ g1, get_guess_loop (word ++ [Char.ofNat 0]) guess (List.range' s n) = some g1 ∧
      g1.length = guess.length ∧
      ∀ j, g1[j]? =
        if s ≤ j ∧ j < s + n then (word[j]?).bind color_of_char else guess[j]? := by
  intro n
  induction n with
  | zero =>
    intro s guess _ _ _
    refine ⟨guess, rfl, rfl, ?_⟩
    intro j
    have : ¬ (s ≤ j ∧ j < s + 0) := by omega
    rw [if_neg this]
  | succ n ih =>
    intro s guess hw hg hlet
    have hlt : s < word.length := by omega
    have hc : (word ++ [Char.ofNat 0])[s]? = some word[s] := by
      rw [List.getElem?_append_left hlt]
      exact List.getElem?_eq_getElem hlt
    obtain ⟨col, hcol, _, _⟩ := color_of_letter (hlet _ (List.getElem_mem hlt))
    have hst := store_nat_isSome guess s col (by omega)
    obtain ⟨g1, hg1, hl1, hidx⟩ := ih (s + 1) (guess.set s col) (by omega)
      (by simp; omega) hlet
    refine ⟨g1, ?_, by rw [hl1]; simp, ?_⟩
    · rw [List.range'_succ]
      simp only [get_guess_loop, hc, hcol, hst]
      exact hg1
    · intro j
      rw [hidx j]
      by_cases hjs : j = s
      · subst hjs
        have h1 : ¬ (j + 1 ≤ j ∧ j < j + 1 + n) := by omega
        have h2 : j ≤ j ∧ j < j + (n + 1) := by omega
        rw [if_neg h1, if_pos h2, List.getElem?_set_self (by omega),
          List.getElem?_eq_getElem hlt]
        exact hcol.symm
      · by_cases hin : s + 1 ≤ j ∧ j < s + 1 + n
        · have h2 : s ≤ j ∧ j < s + (n + 1) := by omega
          rw [if_pos hin, if_pos h2]
        · have h2 : ¬ (s ≤ j ∧ j < s + (n + 1)) := by omega
          rw [if_neg hin, if_neg h2]
          exact List.getElem?_set_ne (fun e => hjs e.symm)

theorem print_code_loop_eq (code : List Int) :
    ∀ (n s : Nat) (out : List Char), s + n ≤ code.length →
    print_code_loop code out (List.range' s n)
      = some (out ++ ((code.drop s).take n).filterMap char_of_color) := by
  intro n
  induction n with
  | zero =>
    intro s out _
    simp [print_code_loop]
  | succ n ih =>
    intro s out hlen
    have hlt : s < code.length := by omega
    have hdrop : code.drop s = code[s] :: code.drop (s + 1) := List.drop_eq_getElem_cons hlt
    rw [List.range'_succ, hdrop, List.take_succ_cons]
    simp only [print_code_loop, List.getElem?_eq_getElem hlt]
    cases hch : char_of_color code[s] with
    | none =>
      simp only [List.filterMap_cons, hch]
      exact ih (s + 1) out (by omega)
    | some letter =>
      simp only [List.filterMap_cons, hch]
      rw [ih (s + 1) (out ++ [letter]) (by omega)]
      simp

theorem print_code_eq (code : List Int) (hlen : code.length = CODE_LENGTH) :
    print_code code = some (code.filterMap char_of_color) := by
  unfold print_code
  rw [List.range_eq_range', print_code_loop_eq code CODE_LENGTH 0 [] (by omega)]
  simp [← hlen]

theorem get_guess_letters (guess : List Int) (word : List Char)
    (hg : guess.length = CODE_LENGTH) (hw : word.length = CODE_LENGTH)
    (hlet : ∀ ch ∈ word, IsLetter ch) :
    ∃ g1, get_guess guess word = some g1 ∧ g1.length = CODE_LENGTH ∧
      ∀ j, j < CODE_LENGTH → g1[j]? = (word[j]?).bind color_of_char := by
  obtain ⟨g1, hg1, hl1, hidx⟩ := get_guess_loop_letters word CODE_LENGTH 0 guess
    (by omega) (by omega) hlet
  refine ⟨g1, ?_, hl1.trans hg, ?_⟩
  · rw [get_guess_fits guess (by omega), List.range_eq_range']
    exact hg1
  · intro j hj
    rw [hidx j, if_pos ⟨Nat.zero_le _, by omega⟩]

theorem length_four {α : Type} (l : List α) (h : l.length = CODE_LENGTH) :
    ∃ a b c d, l = [a, b, c, d] := by
  rcases l with _ | ⟨a, _ | ⟨b, _ | ⟨c, _ | ⟨d, _ | ⟨e, t⟩⟩⟩⟩⟩
  all_goals simp [CODE_LENGTH] at h
  exact ⟨a, b, c, d, rfl⟩

/-- C14: the letter-to-color mapping of `get_guess` and the color-to-letter
mapping of `print_code` are mutually inverse: for every 4-letter word over
{G, B, R, Y, W, O}, `print_code` of the code `get_guess` parses prints the same
4 letters; and for every code of 4 colors in `0..5`, `get_guess` parses the
letters `print_code` prints back to the same code. -/
theorem letters_roundtrip (guess code : List Int) (word : List Char)
    (hg : guess.length = CODE_LENGTH) (hw : word.length = 4)
    (hlet : ∀ ch ∈ word, IsLetter ch) (hc : IsCode code) :
    (∃ g1, get_guess guess word = some g1 ∧ print_code g1 = some word) ∧
    (∃ letters, print_code code = some letters ∧ get_guess guess letters = some code) := by
  constructor
  · obtain ⟨g1, hg1, hl1, hidx⟩ := get_guess_letters guess word hg hw hlet
    refine ⟨g1, hg1, ?_⟩
    rw [print_code_eq g1 hl1]
    obtain ⟨a, b, c, d, rfl⟩ := length_four word hw
    obtain ⟨p, q, r, t, rfl⟩ := length_four g1 hl1
    obtain ⟨pa, ha1, _, ha2⟩ := color_of_letter (hlet a (by simp))
    obtain ⟨pb, hb1, _, hb2⟩ := color_of_letter (hlet b (by simp))
    obtain ⟨pc, hc1, _, hc2⟩ := color_of_letter (hlet c (by simp))
    obtain ⟨pd, hd1, _, hd2⟩ := color_of_letter (hlet d (by simp))
    have h0 := hidx 0 (by decide)
    have h1 := hidx 1 (by decide)
    have h2 := hidx 2 (by decide)
    have h3 := hidx 3 (by decide)
    simp only [List.getElem?_cons_zero, List.getElem?_cons_succ, Option.some_bind, ha1, hb1,
      hc1, hd1, Option.some.injEq] at h0 h1 h2 h3
    subst h0 h1 h2 h3
    simp [List.filterMap_cons, ha2, hb2, hc2, hd2]
  · obtain ⟨p, q, r, t, rfl⟩ := length_four code hc.1
    obtain ⟨a, ha1, hla, ha2⟩ := letter_of_color (hc.2 p (by simp))
    obtain ⟨b, hb1, hlb, hb2⟩ := letter_of_color (hc.2 q (by simp))
    obtain ⟨c, hc1, hlc, hc2⟩ := letter_of_color (hc.2 r (by simp))
    obtain ⟨d, hd1, hld, hd2⟩ := letter_of_color (hc.2 t (by simp))
    refine ⟨[a, b, c, d], ?_, ?_⟩
    · rw [print_code_eq _ hc.1]
      simp [List.filterMap_cons, ha1, hb1, hc1, hd1]
    · have hlet2 : ∀ ch ∈ [a, b, c, d], IsLetter ch := by
        intro ch hch
        simp only [List.mem_cons, List.mem_singleton, List.not_mem_nil, or_false] at hch
        rcases hch with e | e | e | e <;> subst e <;> assumption
      obtain ⟨g1, hg1, hl1, hidx⟩ := get_guess_letters guess [a, b, c, d] hg rfl hlet2
      rw [hg1]
      obtain ⟨p1, q1, r1, t1, rfl⟩ := length_four g1 hl1
      have h0 := hidx 0 (by decide)
      have h1 := hidx 1 (by decide)
      have h2 := hidx 2 (by decide)
      have h3 := hidx 3 (by decide)
      simp only [List.getElem?_cons_zero, List.getElem?_cons_succ, Option.some_bind, ha2, hb2,
        hc2, hd2, Option.some.injEq] at h0 h1 h2 h3
      subst h0 h1 h2 h3
      rfl

theorem letters_roundtrip_witness :
    (∃ g1, get_guess [7, 7, 7, 7] "WOOG".toList = some g1 ∧
        print_code g1 = some "WOOG".toList) ∧
    (∃ letters, print_code [RED, YELLOW, YELLOW, BLUE] = some letters ∧
        get_guess [7, 7, 7, 7] letters = some [RED, YELLOW, YELLOW, BLUE]) :=
  letters_roundtrip [7, 7, 7, 7] [RED, YELLOW, YELLOW, BLUE] "WOOG".toList
    (by decide) (by decide) (by decide) (by decide)

/-! ## Agreement with standard scoring -/

theorem countP_color_eq {c : Int} (hc : InRange c) :
    (List.range NUM_COLORS).countP (fun (k : Nat) => decide ((k : Int) = c)) = 1 := by
  have hk : ((c.toNat : Nat) : Int) = c := Int.toNat_of_nonneg hc.1
  have h := countP_mark_one (l := List.range NUM_COLORS) (fun _ => false)
    (fun (k : Nat) => decide ((k : Int) = c)) c.toNat (List.nodup_range _)
    (List.mem_range.2 ((Int.toNat_lt hc.1).2 hc.2)) rfl (by simp [hk])
    (by
      intro d hd
      have : ¬ ((d : Int) = c) := by
        intro e
        apply hd
        rw [← e]
        simp
      simp [this])
  rw [h]
  simp

theorem sum_indicator_eq_countP {α : Type} (l : List α) (f : α → Nat) (p : α → Bool)
    (h : ∀ x ∈ l, f x = if p x = true then 1 else 0) : (l.map f).sum = l.countP p := by
  induction l with
  | nil => simp
  | cons x l ih =>
    rw [List.map_cons, List.sum_cons, List.countP_cons, h x (List.mem_cons_self _ _),
      ih (fun y hy => h y (List.mem_cons_of_mem _ hy))]
    omega

theorem aligned_count {code guess : List Int} (hc : IsCode code) (hd : code.Nodup) :
    ∀ is : List Nat, is.Nodup → (∀ i ∈ is, i < CODE_LENGTH) →
    (List.range NUM_COLORS).countP (fun (k : Nat) =>
        is.any fun i => decide (guess[i]? = some (k : Int)) && decide (code[i]? = some (k : Int)))
      = is.countP (fun i => decide (guess[i]? = code[i]?)) := by
  intro is
  induction is with
  | nil =>
    intro _ _
    simp
  | cons i is ih =>
    intro hnd his
    rw [List.nodup_cons] at hnd
    have hi : i < CODE_LENGTH := his i (List.mem_cons_self _ _)
    obtain ⟨c, hci, hcr⟩ := hc.entry hi
    have hsplit := countP_disjoint_or (List.range NUM_COLORS)
      (fun (k : Nat) => decide (guess[i]? = some (k : Int)) && decide (code[i]? = some (k : Int)))
      (fun (k : Nat) =>
        is.any fun j => decide (guess[j]? = some (k : Int)) && decide (code[j]? = some (k : Int)))
      (fun (k : Nat) => (i :: is).any fun j =>
        decide (guess[j]? = some (k : Int)) && decide (code[j]? = some (k : Int)))
      (by
        intro k _
        simp only [List.any_cons])
      (by
        intro k _ hboth
        obtain ⟨h1, h2⟩ := hboth
        simp only [Bool.and_eq_true, decide_eq_true_eq] at h1
        rw [List.any_eq_true] at h2
        obtain ⟨j, hj, hj2⟩ := h2
        simp only [Bool.and_eq_true, decide_eq_true_eq] at hj2
        have hj4 : j < CODE_LENGTH := his j (List.mem_cons_of_mem _ hj)
        have hij : i ≠ j := fun e => hnd.1 (e ▸ hj)
        have hne := (List.nodup_iff_getElem?_ne_getElem?.1 hd)
        rcases Nat.lt_or_gt_of_ne hij with hlt | hgt
        · exact hne i j hlt (by rw [hc.1]; exact hj4) (by rw [h1.2, hj2.2])
        · exact hne j i hgt (by rw [hc.1]; exact hi) (by rw [h1.2, hj2.2]))
    rw [hsplit, ih hnd.2 (fun j hj => his j (List.mem_cons_of_mem _ hj)), List.countP_cons]
    have hone : (List.range NUM_COLORS).countP (fun (k : Nat) =>
          decide (guess[i]? = some (k : Int)) && decide (code[i]? = some (k : Int)))
        = if decide (guess[i]? = code[i]?) = true then 1 else 0 := by
      by_cases he : guess[i]? = code[i]?
      · rw [if_pos (by simpa using he), ← countP_color_eq hcr]
        apply List.countP_congr
        intro k _
        rw [he, hci]
        simp only [Bool.and_self, decide_eq_true_eq, Option.some.injEq]
        exact eq_comm
      · rw [if_neg (by simpa using he), List.countP_eq_zero]
        intro k _ hk
        simp only [Bool.and_eq_true, decide_eq_true_eq] at hk
        exact he (hk.1.trans hk.2.symm)
    rw [hone]
    omega

theorem exact_positions_eq_aligned {code guess : List Int} (hc : IsCode code)
    (hd : code.Nodup) :
    exact_positions code guess
      = (List.range NUM_COLORS).countP (fun (k : Nat) => aligned code guess (k : Int)) := by
  unfold exact_positions aligned
  exact (aligned_count hc hd (List.range CODE_LENGTH) (List.nodup_range _)
    (fun i hi => List.mem_range.1 hi)).symm

theorem aligned_mem {code guess : List Int} {c : Int} (h : aligned code guess c = true) :
    c ∈ code ∧ c ∈ guess := by
  unfold aligned at h
  rw [List.any_eq_true] at h
  obtain ⟨i, _, hi⟩ := h
  simp only [Bool.and_eq_true, decide_eq_true_eq] at hi
  exact ⟨List.mem_iff_getElem?.2 ⟨i, hi.2⟩, List.mem_iff_getElem?.2 ⟨i, hi.1⟩⟩

theorem common_colors_split (code guess : List Int) :
    common_colors code guess
      = (List.range NUM_COLORS).countP (fun (k : Nat) => aligned code guess (k : Int))
        + displaced_colors code guess := by
  unfold common_colors displaced_colors
  apply countP_disjoint_or
  · intro k _
    cases ha : aligned code guess (k : Int)
    · simp
    · have := aligned_mem ha
      simp [this.1, this.2]
  · intro k _ h
    obtain ⟨h1, h2⟩ := h
    simp [h1] at h2

theorem common_colors_eq_standard {secret : List Int} (guess : List Int) (hd : secret.Nodup) :
    common_colors secret guess = standard_matches secret guess := by
  unfold common_colors standard_matches
  symm
  apply sum_indicator_eq_countP
  intro k _
  by_cases hs : (k : Int) ∈ secret
  · rw [List.count_eq_one_of_mem hd hs]
    by_cases hg : (k : Int) ∈ guess
    · have : 0 < guess.count (k : Int) := List.count_pos_iff.2 hg
      simp only [hs, hg, decide_True, Bool.and_self, if_true]
      omega
    · rw [List.count_eq_zero_of_not_mem hg]
      simp [hg]
  · rw [List.count_eq_zero_of_not_mem hs]
    simp [hs]

/-- C16: for every secret of 4 pairwise-distinct colors in `0..5` and every
guess of 4 colors in `0..5` (repeats allowed), `check_guess` agrees with
standard Mastermind scoring: `num_correct + num_misplaced` is the number of
distinct colors that occur in both, which is the sum over the colors `c` of
`min (count of c in secret) (count of c in guess)`, so that `num_misplaced` is
that sum minus `num_correct`. -/
theorem check_guess_standard (secret guess : List Int) (hs : IsCode secret)
    (hd : secret.Nodup) (hg : IsCode guess) :
    ∃ fb, check_guess secret guess = some fb ∧
      fb.num_correct + fb.num_misplaced = common_colors secret guess ∧
      common_colors secret guess = standard_matches secret guess ∧
      fb.num_misplaced = standard_matches secret guess - fb.num_correct := by
  obtain ⟨fb, hfb, hc, hm, _⟩ := check_guess_run hs hg
  have h1 := @exact_positions_eq_aligned secret guess hs hd
  have h2 := common_colors_split secret guess
  have h3 := common_colors_eq_standard guess hd
  exact ⟨fb, hfb, by omega, h3, by omega⟩

theorem check_guess_standard_witness :
    ∃ fb, check_guess [GREEN, BLUE, RED, YELLOW] [BLUE, GREEN, GREEN, YELLOW] = some fb ∧
      fb.num_correct + fb.num_misplaced
        = common_colors [GREEN, BLUE, RED, YELLOW] [BLUE, GREEN, GREEN, YELLOW] ∧
      common_colors [GREEN, BLUE, RED, YELLOW] [BLUE, GREEN, GREEN, YELLOW]
        = standard_matches [GREEN, BLUE, RED, YELLOW] [BLUE, GREEN, GREEN, YELLOW] ∧
      fb.num_misplaced
        = standard_matches [GREEN, BLUE, RED, YELLOW] [BLUE, GREEN, GREEN, YELLOW]
          - fb.num_correct :=
  check_guess_standard [GREEN, BLUE, RED, YELLOW] [BLUE, GREEN, GREEN, YELLOW]
    (by decide) (by decide) (by decide)

/-! ## `generate_code` and the first distinct draws -/

theorem first_from_nil (acc : List Int) : first_occurrences_from acc [] = acc := rfl

theorem first_from_cons (acc : List Int) (v : Int) (vs : List Int) :
    first_occurrences_from acc (v :: vs)
      = first_occurrences_from (if v ∈ acc then acc else acc ++ [v]) vs := rfl

theorem first_from_append (acc xs ys : List Int) :
    first_occurrences_from acc (xs ++ ys)
      = first_occurrences_from (first_occurrences_from acc xs) ys := by
  unfold first_occurrences_from
  exact List.foldl_append _ _ _ _

theorem first_from_skip (xs : List Int) :
    ∀ acc : List Int, (∀ v ∈ xs, v ∈ acc) → first_occurrences_from acc xs = acc := by
  induction xs with
  | nil =>
    intro acc _
    rfl
  | cons v vs ih =>
    intro acc h
    rw [first_from_cons, if_pos (h v (List.mem_cons_self _ _))]
    exact ih acc (fun x hx => h x (List.mem_cons_of_mem _ hx))

theorem first_from_prefix (vs : List Int) :
    ∀ acc : List Int, ∃ t, first_occurrences_from acc vs = acc ++ t := by
  induction vs with
  | nil =>
    intro acc
    exact ⟨[], by simp [first_from_nil]⟩
  | cons v vs ih =>
    intro acc
    rw [first_from_cons]
    by_cases hv : v ∈ acc
    · rw [if_pos hv]
      exact ih acc
    · rw [if_neg hv]
      obtain ⟨t, ht⟩ := ih (acc ++ [v])
      exact ⟨v :: t, by rw [ht]; simp⟩

theorem first_from_mem (vs : List Int) :
    ∀ (acc : List Int) (x : Int), x ∈ first_occurrences_from acc vs ↔ x ∈ acc ∨ x ∈ vs := by
  induction vs with
  | nil =>
    intro acc x
    simp [first_from_nil]
  | cons v vs ih =>
    intro acc x
    rw [first_from_cons, ih]
    by_cases hv : v ∈ acc
    · rw [if_pos hv, List.mem_cons]
      constructor
      · rintro (h | h)
        · exact Or.inl h
        · exact Or.inr (Or.inr h)
      · rintro (h | h | h)
        · exact Or.inl h
        · exact Or.inl (h ▸ hv)
        · exact Or.inr h
    · rw [if_neg hv, List.mem_append, List.mem_singleton, List.mem_cons]
      tauto

theorem first_from_nodup (vs : List Int) :
    ∀ acc : List Int, acc.Nodup → (first_occurrences_from acc vs).Nodup := by
  induction vs with
  | nil =>
    intro acc h
    exact h
  | cons v vs ih =>
    intro acc h
    rw [first_from_cons]
    by_cases hv : v ∈ acc
    · rw [if_pos hv]
      exact ih acc h
    · rw [if_neg hv]
      apply ih
      rw [List.nodup_append]
      refine ⟨h, List.nodup_singleton v, ?_⟩
      intro x hx hx1
      rw [List.mem_singleton] at hx1
      exact hv (hx1 ▸ hx)

theorem first_occurrences_length (vs : List Int) :
    (first_occurrences vs).length = vs.dedup.length := by
  unfold first_occurrences
  rw [← List.card_toFinset, ← List.toFinset_card_of_nodup
    (first_from_nodup vs [] List.nodup_nil)]
  congr 1
  ext x
  rw [List.mem_toFinset, List.mem_toFinset, first_from_mem]
  simp

theorem first_from_step (acc : List Int) (p1 t : List Nat) (r : Nat)
    (hp : ∀ x ∈ p1, ((x % NUM_COLORS : Nat) : Int) ∈ acc)
    (hr : ((r % NUM_COLORS : Nat) : Int) ∉ acc) :
    first_occurrences_from acc (color_draws (p1 ++ r :: t))
      = first_occurrences_from (acc ++ [((r % NUM_COLORS : Nat) : Int)]) (color_draws t) := by
  unfold color_draws
  rw [List.map_append, first_from_append, first_from_skip _ acc, List.map_cons,
    first_from_cons, if_neg hr]
  intro v hv
  obtain ⟨x, hx, rfl⟩ := List.mem_map.1 hv
  exact hp x hx

theorem draw_color_first (used acc : List Int) (hlen : used.length = NUM_COLORS)
    (hmark : ∀ x, marked used x = true ↔ x ∈ acc) :
    ∀ draws : List Nat, (∃ r ∈ draws, ((r % NUM_COLORS : Nat) : Int) ∉ acc) →
    ∃ pre r rest, draws = pre ++ r :: rest ∧
      (∀ x ∈ pre, ((x % NUM_COLORS : Nat) : Int) ∈ acc) ∧
      ((r % NUM_COLORS : Nat) : Int) ∉ acc ∧
      draw_color used draws = some (((r % NUM_COLORS : Nat) : Int), rest) := by
  intro draws
  induction draws with
  | nil =>
    rintro ⟨r, hr, _⟩
    simp at hr
  | cons r rs ih =>
    intro hex
    have h6 : NUM_COLORS = 6 := rfl
    have hrange : InRange ((r % NUM_COLORS : Nat) : Int) := by
      constructor
      · omega
      · rw [h6]; omega
    obtain ⟨u, hu⟩ := load_isSome used _ hrange.1 (by rw [hlen]; exact hrange.2)
    by_cases hu0 : u = 0
    · have hnot : ((r % NUM_COLORS : Nat) : Int) ∉ acc := by
        intro hin
        have h1 := (hmark _).2 hin
        rw [(load_eq_zero_iff hu).1 hu0] at h1
        exact Bool.noConfusion h1
      refine ⟨[], r, rs, rfl, by simp, hnot, ?_⟩
      simp only [draw_color, hu, hu0, ne_eq, not_true_eq_false, if_false]
    · have hin : ((r % NUM_COLORS : Nat) : Int) ∈ acc := by
        apply (hmark _).1
        cases hb : marked used ((r % NUM_COLORS : Nat) : Int)
        · exact absurd ((load_eq_zero_iff hu).2 hb) hu0
        · rfl
      have hex1 : ∃ r1 ∈ rs, ((r1 % NUM_COLORS : Nat) : Int) ∉ acc := by
        obtain ⟨r1, hr1, hr2⟩ := hex
        rcases List.mem_cons.1 hr1 with e | e
        · subst e
          exact absurd hin hr2
        · exact ⟨r1, e, hr2⟩
      obtain ⟨pre, r1, rest, hd, hpre, hr1, hdc⟩ := ih hex1
      refine ⟨r :: pre, r1, rest, by rw [hd]; rfl, ?_, hr1, ?_⟩
      · intro x hx
        rcases List.mem_cons.1 hx with e | e
        · subst e
          exact hin
        · exact hpre x e
      · simp only [draw_color, hu, ne_eq, hu0, not_false_eq_true, if_true]
        exact hdc

theorem generate_loop_first :
    ∀ (n s : Nat) (acc code used : List Int) (draws : List Nat),
    used.length = NUM_COLORS → (∀ x, marked used x = true ↔ x ∈ acc) →
    acc.length = s → code.take s = acc → s + n ≤ code.length →
    s + n ≤ (first_occurrences_from acc (color_draws draws)).length →
    ∃ out rest pre, generate_loop code used draws (List.range' s n) = some (out, rest) ∧
      draws = pre ++ rest ∧ out.length = code.length ∧
      out.take (s + n) = first_occurrences_from acc (color_draws pre) ∧
      (first_occurrences_from acc (color_draws pre)).length = s + n ∧
      (n = 0 → pre = []) ∧
      (0 < n → ∃ pre1 r, pre = pre1 ++ [r] ∧
        ((r % NUM_COLORS : Nat) : Int) ∉ first_occurrences_from acc (color_draws pre1)) := by
  intro n
  induction n with
  | zero =>
    intro s acc code used draws _ _ hacc htake _ _
    refine ⟨code, draws, [], rfl, rfl, rfl, ?_, ?_, fun _ => rfl,
      fun h => absurd h (Nat.lt_irrefl 0)⟩
    · simpa [color_draws, first_from_nil] using htake
    · simpa [color_draws, first_from_nil] using hacc
  | succ n ih =>
    intro s acc code used draws hlen hmark hacc htake hcode hfirst
    have hex : ∃ r ∈ draws, ((r % NUM_COLORS : Nat) : Int) ∉ acc := by
      by_contra hno
      push_neg at hno
      have hskip : first_occurrences_from acc (color_draws draws) = acc := by
        apply first_from_skip
        intro v hv
        unfold color_draws at hv
        obtain ⟨x, hx, rfl⟩ := List.mem_map.1 hv
        exact hno x hx
      rw [hskip] at hfirst
      omega
    obtain ⟨p1, r, d1, hd, hp1, hr, hdc⟩ := draw_color_first used acc hlen hmark draws hex
    have h6 : NUM_COLORS = 6 := rfl
    have hrange : InRange ((r % NUM_COLORS : Nat) : Int) := by
      constructor
      · omega
      · rw [h6]; omega
    obtain ⟨used1, hused1⟩ := store_isSome used ((r % NUM_COLORS : Nat) : Int) 1 hrange.1
      (by rw [hlen]; exact hrange.2)
    have hs : s < code.length := by omega
    have hcode1 := store_nat_isSome code s ((r % NUM_COLORS : Nat) : Int) hs
    have hmark1 : ∀ x, marked used1 x = true ↔ x ∈ acc ++ [((r % NUM_COLORS : Nat) : Int)] := by
      intro x
      rw [marked_store hused1 x, List.mem_append, List.mem_singleton, Bool.or_eq_true,
        decide_eq_true_eq, hmark x]
      tauto
    have htake1 : (code.set s ((r % NUM_COLORS : Nat) : Int)).take (s + 1)
        = acc ++ [((r % NUM_COLORS : Nat) : Int)] := by
      have hkeep : (code.set s ((r % NUM_COLORS : Nat) : Int)).take s = code.take s := by
        rw [List.set_take, List.set_eq_of_length_le]
        simp
      rw [List.take_succ, hkeep, htake, List.getElem?_set_self hs]
      rfl
    have hstep := first_from_step acc p1 d1 r hp1 hr
    obtain ⟨out, rest, pre2, hloop, hd1, hout, htk, hfl, hzero, hpos⟩ :=
      ih (s + 1) (acc ++ [((r % NUM_COLORS : Nat) : Int)])
        (code.set s ((r % NUM_COLORS : Nat) : Int)) used1 d1
        (by rw [store_length hused1]; exact hlen) hmark1 (by simp [hacc]) htake1
        (by simp; omega) (by rw [← hstep, ← hd]; omega)
    have hstep2 := first_from_step acc p1 pre2 r hp1 hr
    refine ⟨out, rest, p1 ++ r :: pre2, ?_, ?_, by rw [hout]; simp, ?_, ?_, ?_, ?_⟩
    · rw [List.range'_succ]
      simp only [generate_loop, hdc, hused1, hcode1]
      exact hloop
    · rw [hd, hd1]
      simp
    · rw [hstep2, ← htk]
      congr 1
      omega
    · rw [hstep2, hfl]
      omega
    · intro h
      omega
    · intro _
      rcases Nat.eq_zero_or_pos n with hn | hn
      · have hpre2 := hzero hn
        subst hpre2
        refine ⟨p1, r, rfl, ?_⟩
        rw [first_from_skip _ acc]
        · exact hr
        · intro v hv
          unfold color_draws at hv
          obtain ⟨x, hx, rfl⟩ := List.mem_map.1 hv
          exact hp1 x hx
      · obtain ⟨q, r2, hq, hr2⟩ := hpos hn
        refine ⟨p1 ++ r :: q, r2, by rw [hq]; simp, ?_⟩
        rw [first_from_step acc p1 q r hp1 hr]
        exact hr2

/-- C17: whenever the values `rand() % NUM_COLORS` drawn from the random source
hold at least 4 distinct values, `generate_code` terminates and writes exactly
the first 4 distinct values in the order of their first occurrence; the draws it
has consumed end with the first occurrence of the fourth distinct value (before
it only 3 distinct values were drawn) and all later draws are left. -/
theorem generate_code_first_distinct (code : List Int) (draws : List Nat)
    (hlen : code.length = CODE_LENGTH) (h4 : 4 ≤ (color_draws draws).dedup.length) :
    ∃ out rest pre r, generate_code code draws = some (out, rest) ∧
      out = (first_occurrences (color_draws draws)).take 4 ∧
      draws = pre ++ r :: rest ∧ (color_draws pre).dedup.length = 3 ∧
      ((r % NUM_COLORS : Nat) : Int) ∉ color_draws pre := by
  have hc4 : CODE_LENGTH = 4 := rfl
  obtain ⟨out, rest, pre, hloop, hd, hout, htk, hfl, _, hpos⟩ :=
    generate_loop_first CODE_LENGTH 0 [] code (zeroed NUM_COLORS) draws (by simp [zeroed])
      (by intro x; simp [marked_zeroed]) rfl rfl (by omega)
      (by
        have := first_occurrences_length (color_draws draws)
        unfold first_occurrences at this
        omega)
  obtain ⟨pre1, r, hpre, hr⟩ := hpos (by decide)
  have hfo : first_occurrences (color_draws draws)
      = first_occurrences_from [] (color_draws pre) ++
        ((first_occurrences_from (first_occurrences_from [] (color_draws pre))
          (color_draws rest)).drop 4) := by
    obtain ⟨t, ht⟩ := first_from_prefix (color_draws rest)
      (first_occurrences_from [] (color_draws pre))
    unfold first_occurrences
    have : color_draws draws = color_draws pre ++ color_draws rest := by
      rw [hd]
      unfold color_draws
      exact List.map_append _ _ _
    rw [this, first_from_append, ht, List.drop_append_of_le_length (by omega),
      List.drop_of_length_le (by omega)]
    simp
  refine ⟨out, rest, pre1, r, ?_, ?_, ?_, ?_, ?_⟩
  · unfold generate_code
    rw [List.range_eq_range']
    exact hloop
  · rw [hfo, List.take_left' (by omega), ← htk, List.take_of_length_le (by omega)]
  · rw [hd, hpre]
    simp
  · rw [← first_occurrences_length]
    unfold first_occurrences
    have hsplit : color_draws pre = color_draws pre1 ++ [((r % NUM_COLORS : Nat) : Int)] := by
      rw [hpre]
      unfold color_draws
      simp
    rw [hsplit, first_from_append, first_from_cons, if_neg hr, first_from_nil,
      List.length_append] at hfl
    simp only [List.length_singleton] at hfl
    omega
  · intro hin
    apply hr
    rw [first_from_mem]
    exact Or.inr hin

theorem generate_code_first_distinct_witness :
    ∃ out rest pre r, generate_code [9, 9, 9, 9] [7, 13, 2, 8, 3, 11, 4] = some (out, rest) ∧
      out = (first_occurrences (color_draws [7, 13, 2, 8, 3, 11, 4])).take 4 ∧
      [7, 13, 2, 8, 3, 11, 4] = pre ++ r :: rest ∧ (color_draws pre).dedup.length = 3 ∧
      ((r % NUM_COLORS : Nat) : Int) ∉ color_draws pre :=
  generate_code_first_distinct [9, 9, 9, 9] [7, 13, 2, 8, 3, 11, 4] (by decide) (by decide)

end Mastermind
